import Mathlib

/-!
Verification of the `go_download_attachment` image downloader (src/main.go).

The program renders a page, extracts `img` `src` attributes, resolves each
against the page URL with Go's `net/url` resolution, derives a local file
name with `path/filepath.Base` (falling back to a synthesized name), and
downloads each resource with a blocking HTTP GET.

The shallow embedding below models:
  * `net/url`: `Parse`, `(*URL).Parse`, `ResolveReference`, `resolvePath`
    and `URL.String`, translated from the Go standard library source,
    restricted to URLs without percent-escapes, control characters, or
    `Userinfo` validation (the `img`-src domain of this program).  A `""`
    component encodes an absent component, exactly as in `net/url`.
  * `path/filepath`: `Base`, `Ext`, `Join` (on Unix, `Join` of two clean
    components is modeled as `dir ++ "/" ++ name`).
  * `main`'s per-entry loop (src/main.go lines 75-100), `downloadFile`
    (lines 104-123) and `getFileExtension` (lines 126-132).
  * HTTP is modeled as an oracle from the request URL to either a
    transport failure or a response (status code, status text, body
    bytes).  Local file I/O appears twice: `downloadFile` runs against a
    reliable disk (the setting of the byte-round-trip claims), and
    `downloadFileDisk` adds an explicit disk-behavior oracle under which
    `os.Create` and `io.Copy` may fail, a failing copy leaving a partial
    file, exactly as in the source.
  * RFC 3986 sections 5.2.2-5.2.4 (the "standard relative-reference
    resolution algorithm" named by the specification), written from the
    RFC's own pseudocode, to compare against Go's implementation.

Strings are manipulated through their underlying `List Char`.
-/

/-- Splits a character list on `'/'`, like Go's `strings.Split(s, "/")`.
Always returns a nonempty list of slash-free segments. -/
def splitSlash : List Char → List (List Char)
  | [] => [[]]
  | c :: rest =>
    if c = '/' then [] :: splitSlash rest
    else
      match splitSlash rest with
      | [] => [[c]]
      | s :: ss => (c :: s) :: ss

/-- Joins segments with `'/'`, like Go's `strings.Join(ss, "/")`. -/
def joinSegs : List (List Char) → List Char
  | [] => []
  | [s] => s
  | s :: rest => s ++ '/' :: joinSegs rest

/-- Renders a rooted path from its segment list: `jr ["a","b"] = "/a/b"`,
`jr [""] = "/"`, `jr [] = ""`. -/
def jr : List (List Char) → List Char
  | [] => []
  | s :: rest => '/' :: (s ++ jr rest)

/-- Go's `strings.TrimPrefix(s, "/")`: drop one leading slash if present. -/
def trimLeadSlash : List Char → List Char
  | '/' :: rest => rest
  | l => l

/-- Go's `base[:strings.LastIndex(base, "/")+1]`: the prefix of `base` up to and
including its last `'/'` (empty when `base` has no slash). -/
def upToLastSlash (l : List Char) : List Char :=
  (l.reverse.dropWhile (fun c => c ≠ '/')).reverse

/-- The suffix of `l` after its last `'/'` (all of `l` when it has no slash). -/
def afterLastSlashC (l : List Char) : List Char :=
  (l.reverse.takeWhile (fun c => c ≠ '/')).reverse

/-- Boolean prefix test on character lists. -/
def begins : List Char → List Char → Bool
  | [], _ => true
  | _ :: _, [] => false
  | a :: p, b :: l => a = b && begins p l

/-- One step of the segment loop in `net/url`'s `resolvePath`:
`"."` is dropped, `".."` pops the last collected segment, anything else is
appended. -/
def goStep (dst : List (List Char)) (elem : List Char) : List (List Char) :=
  if elem = ['.'] then dst
  else if elem = ['.', '.'] then dst.dropLast
  else dst ++ [elem]

/-- The merge step of `net/url`'s `resolvePath`: choose the raw path to
normalize from `base` and `ref`. -/
def goMergeFull (base ref : List Char) : List Char :=
  if ref = [] then base
  else if ref.head? ≠ some '/' then upToLastSlash base ++ ref
  else ref

/-- Translation of `net/url`'s `resolvePath(base, ref)` (Go standard library) to
character lists: merge, split on `'/'`, process `"."`/`".."` segments, add a
trailing slash when the last segment was a dot segment, and re-root. -/
def resolvePathC (base ref : List Char) : List Char :=
  let full := goMergeFull base ref
  if full = [] then []
  else
    let src := splitSlash full
    let d0 := src.foldl goStep []
    let d1 := if src.getLastD [] = ['.'] ∨ src.getLastD [] = ['.', '.'] then d0 ++ [[]] else d0
    '/' :: trimLeadSlash (joinSegs d1)

/-- String wrapper for `resolvePathC`. -/
def resolvePath (base ref : String) : String :=
  String.mk (resolvePathC base.data ref.data)

/-- Go's `net/url.URL`, restricted to the escape-free fragment: `RawPath` and
`RawFragment` are omitted (they equal the decoded fields here), `OmitHost` is
omitted (never set by `Parse` on this domain).  `opq` is the `Opaque` field. -/
structure GoURL where
  scheme : String
  opq : String
  user : Option String
  host : String
  path : String
  forceQuery : Bool
  rawQuery : String
  fragment : String
  deriving Repr, DecidableEq

/-- Go's `(*URL).ResolveReference(ref)` translated field-by-field, with
`resolvePath` applied exactly where the Go source applies it. -/
def resolveReference (u ref : GoURL) : GoURL :=
  let url0 := ref
  let url1 := if ref.scheme = "" then { url0 with scheme := u.scheme } else url0
  if ref.scheme ≠ "" ∨ ref.host ≠ "" ∨ ref.user ≠ none then
    { url1 with path := resolvePath ref.path "" }
  else if ref.opq ≠ "" then
    { url1 with user := none, host := "", path := "" }
  else
    let url2 :=
      if ref.path = "" ∧ ref.forceQuery = false ∧ ref.rawQuery = "" then
        let url2a := { url1 with rawQuery := u.rawQuery }
        if ref.fragment = "" then { url2a with fragment := u.fragment } else url2a
      else url1
    { url2 with host := u.host, user := u.user, path := resolvePath u.path ref.path }

/-- The query/fragment tail of `URL.String`. -/
def queryFragmentSuffix (u : GoURL) : String :=
  (if u.forceQuery = true ∨ u.rawQuery ≠ "" then "?" ++ u.rawQuery else "") ++
  (if u.fragment ≠ "" then "#" ++ u.fragment else "")

/-- Go's `URL.String()`, restricted to the escape-free fragment (no
percent-encoding of host, path, or fragment). -/
def urlString (u : GoURL) : String :=
  let buf0 := if u.scheme ≠ "" then u.scheme ++ ":" else ""
  if u.opq ≠ "" then
    buf0 ++ u.opq ++ queryFragmentSuffix u
  else
    let buf1 :=
      if u.scheme ≠ "" ∨ u.host ≠ "" ∨ u.user ≠ none then
        buf0 ++
          (if u.host ≠ "" ∨ u.path ≠ "" ∨ u.user ≠ none then "//" else "") ++
          (match u.user with
            | some ui => ui ++ "@"
            | none => "") ++
          u.host
      else buf0
    let buf2 :=
      if u.path ≠ "" ∧ u.path.data.head? ≠ some '/' ∧ u.host ≠ "" then buf1 ++ "/" else buf1
    let buf3 :=
      if buf2 = "" ∧ (u.path.data.takeWhile (fun c => c ≠ '/')).contains ':' then
        buf2 ++ "./"
      else buf2
    buf3 ++ u.path ++ queryFragmentSuffix u

example : resolvePath "/a/b" "../c.png" = "/c.png" := by decide
example : resolvePath "/a/b" "c.png" = "/a/c.png" := by decide
example : resolvePath "/a/../b.jpg" "" = "/b.jpg" := by decide
example : resolvePath "/..//a" "" = "/a" := by decide

/-- ASCII letter test, as in `net/url`'s `getScheme`. -/
def isAlpha (c : Char) : Bool :=
  ('a' ≤ c ∧ c ≤ 'z') ∨ ('A' ≤ c ∧ c ≤ 'Z')

/-- ASCII digit test. -/
def isDigit (c : Char) : Bool :=
  '0' ≤ c ∧ c ≤ '9'

/-- ASCII lower-casing of one character (`strings.ToLower` on scheme names). -/
def asciiLower (c : Char) : Char :=
  if 'A' ≤ c ∧ c ≤ 'Z' then Char.ofNat (c.toNat + 32) else c

/-- Go's `strings.Cut(l, c)`: part before the first `c`, part after it, and
whether `c` occurred. -/
def cutChar (c : Char) : List Char → List Char × List Char × Bool
  | [] => ([], [], false)
  | x :: rest =>
    if x = c then ([], rest, true)
    else
      let r := cutChar c rest
      (x :: r.1, r.2.1, r.2.2)

/-- The `net/url` `getScheme` loop: scan for a `':'` preceded only by scheme
characters starting with a letter; otherwise the whole input is the rest. -/
def getSchemeAux (full : List Char) : List Char → Nat → Except String (List Char × List Char)
  | [], _ => .ok ([], full)
  | c :: rest, i =>
    if isAlpha c then getSchemeAux full rest (i + 1)
    else if isDigit c ∨ c = '+' ∨ c = '-' ∨ c = '.' then
      if i = 0 then .ok ([], full) else getSchemeAux full rest (i + 1)
    else if c = ':' then
      if i = 0 then .error "missing protocol scheme"
      else .ok (full.take i, full.drop (i + 1))
    else .ok ([], full)

/-- The `net/url` `parseAuthority`, restricted: split at the last `'@'` into
userinfo and host; host/userinfo validation and unescaping are omitted. -/
def parseAuthority (authority : List Char) : Option String × String :=
  if authority.contains '@' then
    let hostRev := authority.reverse.takeWhile (fun c => c ≠ '@')
    let userPart := ((authority.reverse.dropWhile (fun c => c ≠ '@')).reverse).dropLast
    (some (String.mk userPart), String.mk hostRev.reverse)
  else (none, String.mk authority)

/-- Translation of `net/url`'s `parse(rawURL, viaRequest=false)`, branch by
branch on the escape-free, control-character-free fragment. -/
def parseCore (rawURL : List Char) : Except String GoURL :=
  if rawURL = ['*'] then
    .ok ⟨"", "", none, "", "*", false, "", ""⟩
  else
    match getSchemeAux rawURL rawURL 0 with
    | .error e => .error e
    | .ok (schemeRaw, rest0) =>
      let scheme := String.mk (schemeRaw.map asciiLower)
      let step1 : List Char × List Char × Bool :=
        if rest0.getLast? = some '?' ∧ ¬ (rest0.dropLast.contains '?') then
          (rest0.dropLast, [], true)
        else
          let c := cutChar '?' rest0
          (c.1, c.2.1, false)
      let rest1 := step1.1
      let rawQuery := String.mk step1.2.1
      let forceQuery := step1.2.2
      if rest1.head? ≠ some '/' then
        if scheme ≠ "" then
          .ok ⟨scheme, String.mk rest1, none, "", "", forceQuery, rawQuery, ""⟩
        else if (rest1.takeWhile (fun c => c ≠ '/')).contains ':' then
          .error "first path segment in URL cannot contain colon"
        else
          .ok ⟨scheme, "", none, "", String.mk rest1, forceQuery, rawQuery, ""⟩
      else
        if (scheme ≠ "" ∨ ¬ begins ['/', '/', '/'] rest1) ∧ begins ['/', '/'] rest1 then
          let afterSlashes := rest1.drop 2
          let authority := afterSlashes.takeWhile (fun c => c ≠ '/')
          let rest2 := afterSlashes.dropWhile (fun c => c ≠ '/')
          let uh := parseAuthority authority
          .ok ⟨scheme, "", uh.1, uh.2, String.mk rest2, forceQuery, rawQuery, ""⟩
        else
          .ok ⟨scheme, "", none, "", String.mk rest1, forceQuery, rawQuery, ""⟩

/-- Go's `net/url.Parse`: split the fragment off at the first `'#'`, parse the
rest, then attach the fragment. -/
def parseGo (rawURL : String) : Except String GoURL :=
  let c := cutChar '#' rawURL.data
  match parseCore c.1 with
  | .error e => .error e
  | .ok u => .ok { u with fragment := String.mk c.2.1 }

/-- Go's `(*URL).Parse(ref)`: parse `ref` and resolve it against the
receiver (src/main.go line 81 calls this as `base.Parse(src)`). -/
def urlParseOn (base : GoURL) (raw : String) : Except String GoURL :=
  match parseGo raw with
  | .error e => .error e
  | .ok refURL => .ok (resolveReference base refURL)

/-- The URL Resolver contract of the specification (section 4.2): empty raw
strings yield not-ok; otherwise `base.Parse(raw)`, with parse failure as
not-ok (src/main.go lines 76-85). -/
def resolve (base : GoURL) (raw : String) : Option GoURL :=
  if raw = "" then none
  else
    match urlParseOn base raw with
    | .error _ => none
    | .ok u => some u

/-- Go's `path/filepath.Base` on Unix: `"."` for an empty path, then strip
trailing slashes, take the part after the last remaining slash, and return
`"/"` when only slashes were present. -/
def filepathBase (path : String) : String :=
  if path = "" then "."
  else
    let p1 := (path.data.reverse.dropWhile (fun c => c = '/')).reverse
    let p2 := (p1.reverse.takeWhile (fun c => c ≠ '/')).reverse
    if p2 = [] then "/" else String.mk p2

/-- The backward scan of `path/filepath.Ext`: walk the reversed path; a
separator ends the scan with no extension, a dot yields the suffix from
that dot. -/
def extAux (acc : List Char) : List Char → List Char
  | [] => []
  | c :: rest =>
    if c = '/' then []
    else if c = '.' then '.' :: acc
    else extAux (c :: acc) rest

/-- Go's `path/filepath.Ext` on Unix. -/
def filepathExt (path : String) : String :=
  String.mk (extAux [] path.data.reverse)

/-- The function `getFileExtension` (src/main.go lines 126-132): `filepath.Ext`, with
`".jpg"` as the default for an empty extension. -/
def getFileExtension (path : String) : String :=
  let ext := filepathExt path
  if ext = "" then ".jpg" else ext

/-- The Name Deriver (src/main.go lines 90-95): `filepath.Base` of the URL
path, replaced by `image_<i+1><ext>` when it is `""`, `"/"` or `"."`. -/
def deriveName (path : String) (i : Nat) : String :=
  let fileName := filepathBase path
  if fileName = "" ∨ fileName = "/" ∨ fileName = "." then
    "image_" ++ toString (i + 1) ++ getFileExtension path
  else fileName

/-- Result of `http.Get`: a transport error, or a response with its status
code, status text and body bytes. -/
inductive HTTPResult where
  | failure (err : String)
  | response (statusCode : Nat) (status : String) (body : List Nat)
  deriving Repr, DecidableEq

/-- The local filesystem, as a path-to-bytes association list. -/
abbrev FS := List (String × List Nat)

/-- Create or overwrite the file at `p` with `content`. -/
def fsWrite (fs : FS) (p : String) (content : List Nat) : FS :=
  match fs with
  | [] => [(p, content)]
  | (q, c) :: rest => if q = p then (p, content) :: rest else (q, c) :: fsWrite rest p content

/-- Read the file at `p`, if present. -/
def fsLookup (fs : FS) (p : String) : Option (List Nat) :=
  match fs with
  | [] => none
  | (q, c) :: rest => if q = p then some c else fsLookup rest p

/-- Go's `filepath.Join(dir, name)` for the clean inputs this program produces. -/
def filepathJoin (dir name : String) : String :=
  dir ++ "/" ++ name

/-- The function `downloadFile` (src/main.go lines 104-123): on a transport error return
it; on a non-200 status return an error carrying the status text *before*
any file is touched; on 200 create (truncate) the file and stream the body
into it.  Local file I/O is modeled as reliable here; `downloadFileDisk`
below is the same function with fallible local file I/O. -/
def downloadFile (resp : HTTPResult) (outDir fileName : String) (fs : FS) : FS × Option String :=
  match resp with
  | .failure err => (fs, some err)
  | .response code status body =>
    if code ≠ 200 then
      (fs, some ("HTTPステータスがOKではありません: " ++ status))
    else
      let filePath := filepathJoin outDir fileName
      let fs1 := fsWrite fs filePath []
      (fsWrite fs1 filePath body, none)

/-- What happened to one raw source entry in `main`'s loop. -/
inductive EntryOutcome where
  | skippedEmpty
  | parseFailed (raw : String)
  | downloaded (urlStr fileName : String)
  | downloadFailed (urlStr fileName err : String)
  deriving Repr, DecidableEq

/-- The observable effects of one loop iteration: its outcome, the
`fmt.Printf` console lines, the `log.Printf` lines, and the URLs requested
over HTTP. -/
structure EntryEffect where
  outcome : EntryOutcome
  console : List String
  logs : List String
  requests : List String
  deriving Repr, DecidableEq

/-- One iteration of `main`'s loop (src/main.go lines 75-100) over the
0-based index `i` and raw source `src`:  skip empty sources, resolve
against the base, print the 1-based index and the resolved URL, derive the
file name, and download. -/
def processEntry (base : GoURL) (net : String → HTTPResult) (outDir : String)
    (i : Nat) (src : String) (fs : FS) : EntryEffect × FS :=
  if src = "" then (⟨.skippedEmpty, [], [], []⟩, fs)
  else
    match urlParseOn base src with
    | .error e =>
      (⟨.parseFailed src, [], ["srcのパースに失敗しました [" ++ src ++ "]: " ++ e], []⟩, fs)
    | .ok imgURL =>
      let s := urlString imgURL
      let line := "Image " ++ toString (i + 1) ++ ": " ++ s
      let fileName := deriveName imgURL.path i
      let dr := downloadFile (net s) outDir fileName fs
      match dr.2 with
      | none => (⟨.downloaded s fileName, [line], [], [s]⟩, dr.1)
      | some err =>
        (⟨.downloadFailed s fileName err, [line],
          ["画像のダウンロードに失敗しました [" ++ s ++ "]: " ++ err], [s]⟩, dr.1)

/-- The loop of `main` from index `i` on: sequential, never aborting. -/
def runLoopAux (base : GoURL) (net : String → HTTPResult) (outDir : String) :
    FS → Nat → List String → List EntryEffect × FS
  | fs, _, [] => ([], fs)
  | fs, i, src :: rest =>
    let r := processEntry base net outDir i src fs
    let rs := runLoopAux base net outDir r.2 (i + 1) rest
    (r.1 :: rs.1, rs.2)

/-- The whole loop of `main` followed by its normal return: the effect list, the
final filesystem, and the process exit status (0: `main` returns normally
after the loop, whatever the per-entry outcomes). -/
def runLoop (base : GoURL) (net : String → HTTPResult) (outDir : String)
    (entries : List String) (fs : FS) : List EntryEffect × FS × Nat :=
  let r := runLoopAux base net outDir fs 0 entries
  (r.1, r.2, 0)

/-- How the local disk behaves for one download: `os.Create` (src/main.go
line 115) and `io.Copy` (line 121) may each fail.  A failing create leaves
no file behind; a failing copy happens after the create succeeded, so the
created file remains, holding the `written` bytes copied before the
error. -/
inductive DiskBehavior where
  | ok
  | createFails (err : String)
  | copyFails (err : String) (written : Nat)
  deriving Repr, DecidableEq

/-- The function `downloadFile` (src/main.go lines 104-123) once more, now with
fallible local file I/O given by a `DiskBehavior`: the transport-error
and non-200 returns happen before the disk is touched; then `os.Create`
either truncates the file or fails with the filesystem unchanged, and
`io.Copy` either streams the whole body or fails leaving the prefix it
had already copied in the created file. -/
def downloadFileDisk (resp : HTTPResult) (dsk : DiskBehavior) (outDir fileName : String)
    (fs : FS) : FS × Option String :=
  match resp with
  | .failure err => (fs, some err)
  | .response code status body =>
    if code ≠ 200 then
      (fs, some ("HTTPステータスがOKではありません: " ++ status))
    else
      let filePath := filepathJoin outDir fileName
      match dsk with
      | .ok => (fsWrite (fsWrite fs filePath []) filePath body, none)
      | .createFails err => (fs, some err)
      | .copyFails err written =>
        (fsWrite (fsWrite fs filePath []) filePath (body.take written), some err)

/-- One iteration of `main`'s loop (src/main.go lines 75-100) over the
fallible disk: identical to `processEntry` except that the download runs
through `downloadFileDisk`, with the disk's behavior for the request keyed
by the request URL just like the network's. -/
def processEntryDisk (base : GoURL) (net : String → HTTPResult)
    (dsk : String → DiskBehavior) (outDir : String)
    (i : Nat) (src : String) (fs : FS) : EntryEffect × FS :=
  if src = "" then (⟨.skippedEmpty, [], [], []⟩, fs)
  else
    match urlParseOn base src with
    | .error e =>
      (⟨.parseFailed src, [], ["srcのパースに失敗しました [" ++ src ++ "]: " ++ e], []⟩, fs)
    | .ok imgURL =>
      let s := urlString imgURL
      let line := "Image " ++ toString (i + 1) ++ ": " ++ s
      let fileName := deriveName imgURL.path i
      let dr := downloadFileDisk (net s) (dsk s) outDir fileName fs
      match dr.2 with
      | none => (⟨.downloaded s fileName, [line], [], [s]⟩, dr.1)
      | some err =>
        (⟨.downloadFailed s fileName err, [line],
          ["画像のダウンロードに失敗しました [" ++ s ++ "]: " ++ err], [s]⟩, dr.1)

/-- The loop of `main` from index `i` on over the fallible disk:
sequential, never aborting. -/
def runLoopDiskAux (base : GoURL) (net : String → HTTPResult)
    (dsk : String → DiskBehavior) (outDir : String) :
    FS → Nat → List String → List EntryEffect × FS
  | fs, _, [] => ([], fs)
  | fs, i, src :: rest =>
    let r := processEntryDisk base net dsk outDir i src fs
    let rs := runLoopDiskAux base net dsk outDir r.2 (i + 1) rest
    (r.1 :: rs.1, rs.2)

/-- The whole loop of `main` over the fallible disk followed by its normal
return: effect list, final filesystem, and exit status 0. -/
def runLoopDisk (base : GoURL) (net : String → HTTPResult)
    (dsk : String → DiskBehavior) (outDir : String)
    (entries : List String) (fs : FS) : List EntryEffect × FS × Nat :=
  let r := runLoopDiskAux base net dsk outDir fs 0 entries
  (r.1, r.2, 0)

deriving instance DecidableEq for Except

example : parseGo "https://site.test/page" =
    .ok ⟨"https", "", none, "site.test", "/page", false, "", ""⟩ := by decide
example : parseGo "../c.png" = .ok ⟨"", "", none, "", "../c.png", false, "", ""⟩ := by decide
example :
    (urlParseOn ⟨"https", "", none, "ex.com", "/a/b", false, "", ""⟩ "../c.png").map urlString =
    .ok "https://ex.com/c.png" := by decide
example : filepathBase "/weird/path/" = "path" := by decide
example : deriveName "/weird/path/" 0 = "path" := by decide
example : getFileExtension "/a/photo.PNG" = ".PNG" := by decide
example : getFileExtension "/weird/path/" = ".jpg" := by decide
example : deriveName "/" 4 = "image_5.jpg" := by decide

/-- RFC 3986 5.2.4: remove the output buffer's last segment and its
preceding `'/'` (if any). -/
def dropLastSegment (output : List Char) : List Char :=
  match output.reverse.dropWhile (fun c => c ≠ '/') with
  | '/' :: t => t.reverse
  | r => r.reverse

/-- RFC 3986 5.2.4 rule E: the first path segment of the input buffer,
including an initial `'/'` but no later one, and the remaining input. -/
def takeFirstSegmentC (l : List Char) : List Char × List Char :=
  if l.head? = some '/' then
    ('/' :: l.tail.takeWhile (fun c => c ≠ '/'), l.tail.dropWhile (fun c => c ≠ '/'))
  else
    (l.takeWhile (fun c => c ≠ '/'), l.dropWhile (fun c => c ≠ '/'))

/-- The loop of RFC 3986 5.2.4 `remove_dot_segments`, written rule by rule
(A, B, C, D, E in the RFC's order) over an output and an input buffer.
Each iteration strictly shortens the input, so an explicit fuel larger
than the input length makes the recursion structural without changing the
computed value. -/
def rdsF : Nat → List Char → List Char → List Char
  | 0, output, _ => output
  | fuel + 1, output, input =>
    if input = [] then output
    else if begins ['.', '.', '/'] input then rdsF fuel output (input.drop 3)
    else if begins ['.', '/'] input then rdsF fuel output (input.drop 2)
    else if begins ['/', '.', '/'] input then rdsF fuel output ('/' :: input.drop 3)
    else if input = ['/', '.'] then rdsF fuel output ['/']
    else if begins ['/', '.', '.', '/'] input then rdsF fuel (dropLastSegment output) ('/' :: input.drop 4)
    else if input = ['/', '.', '.'] then rdsF fuel (dropLastSegment output) ['/']
    else if input = ['.'] ∨ input = ['.', '.'] then rdsF fuel output []
    else rdsF fuel (output ++ (takeFirstSegmentC input).1) (takeFirstSegmentC input).2

/-- RFC 3986 5.2.4 `remove_dot_segments`, run with sufficient fuel. -/
def rdsRun (output input : List Char) : List Char :=
  rdsF (input.length + 1) output input

/-- String wrapper of `remove_dot_segments`. -/
def rfcRemoveDotSegments (p : String) : String :=
  String.mk (rdsRun [] p.data)

/-- RFC 3986 5.2.3 `merge`: with a base that has an authority and an empty
path, prefix the reference path with `'/'`; otherwise append it to all of
the base path up to and including its right-most `'/'`. -/
def rfcMerge (base : GoURL) (refPath : String) : String :=
  if base.host ≠ "" ∧ base.path = "" then "/" ++ refPath
  else String.mk (upToLastSlash base.path.data) ++ refPath

/-- The target components of RFC 3986 5.2.2 "transform references", with
`""` (resp. `none`) encoding an undefined component as in `net/url`:
scheme/authority inheritance, path merging and dot-segment removal, query
and fragment handling exactly as in the RFC's pseudocode. -/
def rfc3986Resolve (base ref : GoURL) : GoURL :=
  if ref.scheme ≠ "" then
    ⟨ref.scheme, "", ref.user, ref.host, rfcRemoveDotSegments ref.path,
      ref.forceQuery, ref.rawQuery, ref.fragment⟩
  else if ref.host ≠ "" ∨ ref.user ≠ none then
    ⟨base.scheme, "", ref.user, ref.host, rfcRemoveDotSegments ref.path,
      ref.forceQuery, ref.rawQuery, ref.fragment⟩
  else if ref.path = "" then
    if ref.rawQuery ≠ "" ∨ ref.forceQuery = true then
      ⟨base.scheme, "", base.user, base.host, base.path,
        ref.forceQuery, ref.rawQuery, ref.fragment⟩
    else
      ⟨base.scheme, "", base.user, base.host, base.path,
        base.forceQuery, base.rawQuery, ref.fragment⟩
  else if ref.path.data.head? = some '/' then
    ⟨base.scheme, "", base.user, base.host, rfcRemoveDotSegments ref.path,
      ref.forceQuery, ref.rawQuery, ref.fragment⟩
  else
    ⟨base.scheme, "", base.user, base.host, rfcRemoveDotSegments (rfcMerge base ref.path),
      ref.forceQuery, ref.rawQuery, ref.fragment⟩

example : rfcRemoveDotSegments "/a/../c.png" = "/c.png" := by decide
example : rfcRemoveDotSegments "/..//a" = "//a" := by decide
example : rfcRemoveDotSegments "/a/b/" = "/a/b/" := by decide
example : rfcRemoveDotSegments "/a/." = "/a/" := by decide

theorem fsLookup_fsWrite (fs : FS) (p : String) (b : List Nat) :
    fsLookup (fsWrite fs p b) p = some b := by
  induction fs with
  | nil => simp [fsWrite, fsLookup]
  | cons hd t ih =>
    obtain ⟨q, c⟩ := hd
    by_cases hq : q = p
    · simp [fsWrite, fsLookup, hq]
    · simp [fsWrite, fsLookup, hq, ih]

/-- C1: for every URL served with HTTP status 200, `download(url, destDir,
fileName)` returns no error and creates (overwriting any existing file) a
file at `destDir/fileName` whose byte content equals the HTTP response body
exactly, with no transformation. -/
theorem c1_download_200_writes_body (code : Nat) (status : String) (body : List Nat)
    (outDir fileName : String) (fs : FS) (h : code = 200) :
    (downloadFile (.response code status body) outDir fileName fs).2 = none ∧
    fsLookup (downloadFile (.response code status body) outDir fileName fs).1
      (filepathJoin outDir fileName) = some body := by
  subst h
  refine ⟨by simp [downloadFile], ?_⟩
  simp only [downloadFile, ne_eq, not_true_eq_false, if_false, reduceIte]
  exact fsLookup_fsWrite _ _ _

/-- Witness for C1 at a concrete 200 response, destination and prior
filesystem (the path is already present and gets overwritten). -/
theorem c1_download_200_writes_body_witness :
    (downloadFile (.response 200 "200 OK" [137, 80, 78, 71]) "out" "a.png"
      [("out/a.png", [1, 2, 3])]).2 = none ∧
    fsLookup (downloadFile (.response 200 "200 OK" [137, 80, 78, 71]) "out" "a.png"
      [("out/a.png", [1, 2, 3])]).1 (filepathJoin "out" "a.png") = some [137, 80, 78, 71] :=
  c1_download_200_writes_body 200 "200 OK" [137, 80, 78, 71] "out" "a.png"
    [("out/a.png", [1, 2, 3])] rfl

/-- C2: for every URL whose final HTTP response status is not 200,
`download` returns an error carrying the status text, and the filesystem is
returned unchanged (the status check precedes `os.Create`, so no file is
created at `destDir/fileName`). -/
theorem c2_download_non200_error (code : Nat) (status : String) (body : List Nat)
    (outDir fileName : String) (fs : FS) (h : code ≠ 200) :
    downloadFile (.response code status body) outDir fileName fs =
      (fs, some ("HTTPステータスがOKではありません: " ++ status)) := by
  simp [downloadFile, h]

/-- Witness for C2 at a concrete 404 response: the error message carries the
status text and the filesystem is untouched. -/
theorem c2_download_non200_error_witness :
    downloadFile (.response 404 "404 Not Found" [60, 104, 116, 109, 108, 62]) "out" "b.jpg"
      [("out/other.png", [9])] =
      ([("out/other.png", [9])], some "HTTPステータスがOKではありません: 404 Not Found") :=
  c2_download_non200_error 404 "404 Not Found" [60, 104, 116, 109, 108, 62] "out" "b.jpg"
    [("out/other.png", [9])] (by decide)

/-- C5: an empty raw source string is skipped silently: `resolve` returns
not-ok, and the loop iteration produces no resolved reference, no console
line, no log line, no HTTP request, and leaves the filesystem unchanged. -/
theorem c5_empty_src_skipped (base : GoURL) (net : String → HTTPResult) (outDir : String)
    (i : Nat) (fs : FS) :
    processEntry base net outDir i "" fs =
      (⟨.skippedEmpty, [], [], []⟩, fs) ∧
    resolve base "" = none := by
  exact ⟨by simp [processEntry], rfl⟩

theorem downloadFileDisk_ok (resp : HTTPResult) (outDir fileName : String) (fs : FS) :
    downloadFileDisk resp DiskBehavior.ok outDir fileName fs =
      downloadFile resp outDir fileName fs := by
  cases resp with
  | failure e => rfl
  | response code status body =>
    by_cases h : code = 200 <;> simp [downloadFileDisk, downloadFile, h]

theorem downloadFileDisk_snd (resp : HTTPResult) (dsk : DiskBehavior)
    (outDir fileName : String) (fs fs' : FS) :
    (downloadFileDisk resp dsk outDir fileName fs).2 =
      (downloadFileDisk resp dsk outDir fileName fs').2 := by
  cases resp with
  | failure e => rfl
  | response code status body =>
    by_cases h : code = 200
    · cases dsk <;> simp [downloadFileDisk, h]
    · simp [downloadFileDisk, h]

theorem processEntryDisk_effect_fs (base : GoURL) (net : String → HTTPResult)
    (dsk : String → DiskBehavior) (outDir : String)
    (i : Nat) (src : String) (fs : FS) :
    (processEntryDisk base net dsk outDir i src fs).1 =
      (processEntryDisk base net dsk outDir i src []).1 := by
  by_cases hs : src = ""
  · simp [processEntryDisk, hs]
  · simp only [processEntryDisk, hs, if_neg]
    cases hp : urlParseOn base src with
    | error e => simp
    | ok imgURL =>
      simp only
      rw [downloadFileDisk_snd (net (urlString imgURL)) (dsk (urlString imgURL)) outDir
        (deriveName imgURL.path i) fs []]
      cases hdr : (downloadFileDisk (net (urlString imgURL)) (dsk (urlString imgURL)) outDir
          (deriveName imgURL.path i) []).2 <;> simp

theorem runLoopDiskAux_effects (base : GoURL) (net : String → HTTPResult)
    (dsk : String → DiskBehavior) (outDir : String)
    (entries : List String) : ∀ (i : Nat) (fs : FS),
    (runLoopDiskAux base net dsk outDir fs i entries).1 =
      (entries.enumFrom i).map (fun p => (processEntryDisk base net dsk outDir p.1 p.2 []).1) := by
  induction entries with
  | nil => intro i fs; simp [runLoopDiskAux]
  | cons src rest ih =>
    intro i fs
    simp only [runLoopDiskAux, List.enumFrom, List.map_cons]
    rw [processEntryDisk_effect_fs base net dsk outDir i src fs,
      ih (i + 1) (processEntryDisk base net dsk outDir i src fs).2]

/-- C9: per-entry failures are isolated, with local file writes fallible:
the loop exits with status 0; the effect of each entry is a function of
that entry alone (its index and raw source, independently of every other
entry and of the filesystem state it starts from); every failed download
is logged with its URL and error; a failed resolution is logged with the
raw source and a message; every download error (a transport error, a
non-200 status, a failed os.Create or a failed io.Copy) yields the
logged downloadFailed outcome; and the write-error class is reachable: on
a 200 response a failing create surfaces its error with the filesystem
untouched, and a failing copy surfaces its error with the partial file
left behind. -/
theorem c9_per_entry_isolation_disk (base : GoURL) (net : String → HTTPResult)
    (dsk : String → DiskBehavior) (outDir : String) (entries : List String) (fs : FS) :
    (runLoopDisk base net dsk outDir entries fs).2.2 = 0 ∧
    (runLoopDisk base net dsk outDir entries fs).1 =
      entries.enum.map (fun p => (processEntryDisk base net dsk outDir p.1 p.2 []).1) ∧
    (∀ (i : Nat) (src : String) (f : FS) (u fn e : String),
      (processEntryDisk base net dsk outDir i src f).1.outcome =
        EntryOutcome.downloadFailed u fn e →
      (processEntryDisk base net dsk outDir i src f).1.logs =
        ["画像のダウンロードに失敗しました [" ++ u ++ "]: " ++ e]) ∧
    (∀ (i : Nat) (src : String) (f : FS),
      (processEntryDisk base net dsk outDir i src f).1.outcome =
        EntryOutcome.parseFailed src →
      ∃ msg, (processEntryDisk base net dsk outDir i src f).1.logs =
        ["srcのパースに失敗しました [" ++ src ++ "]: " ++ msg]) ∧
    (∀ (i : Nat) (src : String) (f : FS) (imgURL : GoURL) (e : String),
      src ≠ "" → urlParseOn base src = Except.ok imgURL →
      (downloadFileDisk (net (urlString imgURL)) (dsk (urlString imgURL)) outDir
        (deriveName imgURL.path i) f).2 = some e →
      (processEntryDisk base net dsk outDir i src f).1.outcome =
        EntryOutcome.downloadFailed (urlString imgURL) (deriveName imgURL.path i) e) ∧
    (∀ (status : String) (body : List Nat) (fn e : String) (f : FS),
      downloadFileDisk (HTTPResult.response 200 status body) (DiskBehavior.createFails e)
        outDir fn f = (f, some e)) ∧
    (∀ (status : String) (body : List Nat) (fn e : String) (n : Nat) (f : FS),
      (downloadFileDisk (HTTPResult.response 200 status body) (DiskBehavior.copyFails e n)
        outDir fn f).2 = some e ∧
      fsLookup (downloadFileDisk (HTTPResult.response 200 status body)
          (DiskBehavior.copyFails e n) outDir fn f).1
        (filepathJoin outDir fn) = some (body.take n)) := by
  refine ⟨rfl, runLoopDiskAux_effects base net dsk outDir entries 0 fs, ?_, ?_, ?_, ?_, ?_⟩
  · intro i src f u fn e h
    by_cases hs : src = ""
    · simp [processEntryDisk, hs] at h
    · simp only [processEntryDisk, hs, if_neg] at h ⊢
      cases hp : urlParseOn base src with
      | error msg => simp [hp] at h
      | ok imgURL =>
        simp only [hp] at h ⊢
        cases hdr : (downloadFileDisk (net (urlString imgURL)) (dsk (urlString imgURL)) outDir
            (deriveName imgURL.path i) f).2 with
        | none => simp [hdr] at h
        | some err =>
          simp only [hdr] at h ⊢
          cases h
          simp
  · intro i src f h
    by_cases hs : src = ""
    · simp [processEntryDisk, hs] at h
    · simp only [processEntryDisk, hs, if_neg] at h ⊢
      cases hp : urlParseOn base src with
      | error msg => exact ⟨msg, by simp [hp]⟩
      | ok imgURL =>
        simp only [hp] at h
        cases hdr : (downloadFileDisk (net (urlString imgURL)) (dsk (urlString imgURL)) outDir
            (deriveName imgURL.path i) f).2 with
        | none => simp [hdr] at h
        | some err => simp [hdr] at h
  · intro i src f imgURL e hs hp hdl
    simp only [processEntryDisk, hs, if_neg, hp]
    simp [hdl]
  · intro status body fn e f
    simp [downloadFileDisk]
  · intro status body fn e n f
    refine ⟨by simp [downloadFileDisk], ?_⟩
    simp only [downloadFileDisk, ne_eq, not_true_eq_false, if_false, reduceIte]
    exact fsLookup_fsWrite _ _ _

/-- Witness for C9: a concrete entry whose HTTP GET returns 200 but whose
io.Copy fails after one byte, instantiating the logged-failure clause for
a file-write error; the downloadFailed outcome, the partial file and the
log line are checked by evaluation. -/
theorem c9_per_entry_isolation_disk_witness :
    (processEntryDisk ⟨"https", "", none, "site.test", "/page", false, "", ""⟩
        (fun _ => .response 200 "200 OK" [9, 8, 7])
        (fun _ => .copyFails "disk full" 1) "out" 0 "a.png" []).1.outcome =
      EntryOutcome.downloadFailed "https://site.test/a.png" "a.png" "disk full" ∧
    (processEntryDisk ⟨"https", "", none, "site.test", "/page", false, "", ""⟩
        (fun _ => .response 200 "200 OK" [9, 8, 7])
        (fun _ => .copyFails "disk full" 1) "out" 0 "a.png" []).1.logs =
      ["画像のダウンロードに失敗しました [https://site.test/a.png]: disk full"] ∧
    fsLookup (processEntryDisk ⟨"https", "", none, "site.test", "/page", false, "", ""⟩
        (fun _ => .response 200 "200 OK" [9, 8, 7])
        (fun _ => .copyFails "disk full" 1) "out" 0 "a.png" []).2
      (filepathJoin "out" "a.png") = some [9] :=
  ⟨by decide,
    (c9_per_entry_isolation_disk ⟨"https", "", none, "site.test", "/page", false, "", ""⟩
        (fun _ => .response 200 "200 OK" [9, 8, 7])
        (fun _ => .copyFails "disk full" 1) "out" [] []).2.2.1 0 "a.png" []
      "https://site.test/a.png" "a.png" "disk full" (by decide),
    by decide⟩

/-- The specification's extension helper, written from its words: the
substring of the final path segment from its last `'.'` (including the
dot) when present, else the literal default `".jpg"`. -/
def specExtension (path : String) : String :=
  let seg := afterLastSlashC path.data
  if '.' ∈ seg then
    String.mk ('.' :: (seg.reverse.takeWhile (fun c => c ≠ '.')).reverse)
  else ".jpg"

theorem takeWhile_append_all {α} (P : α → Bool) (xs ys : List α) (h : ∀ x ∈ xs, P x = true) :
    (xs ++ ys).takeWhile P = xs ++ ys.takeWhile P := by
  induction xs with
  | nil => simp
  | cons a t ih =>
    have ha := h a (by simp)
    simp only [List.cons_append, List.takeWhile_cons, ha, if_true]
    rw [ih (fun x hx => h x (by simp [hx]))]

theorem extAux_spec : ∀ (r acc : List Char),
    extAux acc r =
      if '.' ∈ r.takeWhile (fun c => c ≠ '/') then
        '.' :: ((r.takeWhile (fun c => c ≠ '.')).reverse ++ acc)
      else [] := by
  intro r
  induction r with
  | nil => intro acc; simp [extAux]
  | cons c t ih =>
    intro acc
    by_cases hs : c = '/'
    · subst hs; simp [extAux]
    · by_cases hd : c = '.'
      · subst hd; simp [extAux]
      · rw [show extAux acc (c :: t) = extAux (c :: acc) t by simp [extAux, hs, hd]]
        rw [ih (c :: acc)]
        simp only [List.takeWhile_cons]
        have hs' : decide (c ≠ '/') = true := by simp [hs]
        have hd' : decide (c ≠ '.') = true := by simp [hd]
        rw [hs', hd']
        simp only [if_true, List.mem_cons, List.reverse_cons, List.append_assoc,
          List.cons_append, List.nil_append]
        have hne : ¬('.' = c) := fun h1 => hd h1.symm
        simp [hne]

theorem takeWhile_dot_before_slash : ∀ r : List Char,
    '.' ∈ r.takeWhile (fun c => c ≠ '/') →
    r.takeWhile (fun c => c ≠ '.') =
      (r.takeWhile (fun c => c ≠ '/')).takeWhile (fun c => c ≠ '.') := by
  intro r
  induction r with
  | nil => intro h; simp at h
  | cons c t ih =>
    intro h
    by_cases hs : c = '/'
    · subst hs; simp at h
    · by_cases hd : c = '.'
      · subst hd; simp
      · have hs' : decide (c ≠ '/') = true := by simp [hs]
        have hd' : decide (c ≠ '.') = true := by simp [hd]
        simp only [List.takeWhile_cons, hs', if_true, List.mem_cons] at h
        have h2 : '.' ∈ t.takeWhile (fun c => decide (c ≠ '/')) := by
          rcases h with h1 | h1
          · exact absurd h1.symm hd
          · exact h1
        simp only [List.takeWhile_cons, hs', hd', if_true]
        rw [ih h2]

/-- C8: for every path string, `ext(path)` returns the literal extension of
the final path segment (substring from its last `'.'`, dot included, case
preserved) when one is present, and the literal default `".jpg"`
otherwise — `getFileExtension` agrees with the specification's helper on
every input. -/
theorem c8_extension_default_jpg (path : String) :
    getFileExtension path = specExtension path := by
  unfold getFileExtension filepathExt specExtension afterLastSlashC
  rw [extAux_spec]
  by_cases h : '.' ∈ path.data.reverse.takeWhile (fun c => c ≠ '/')
  · rw [if_pos h]
    have hmem : '.' ∈ (path.data.reverse.takeWhile (fun c => decide (c ≠ '/'))).reverse := by
      simpa using h
    rw [if_pos hmem]
    have hne : String.mk ('.' :: ((path.data.reverse.takeWhile
        (fun c => decide (c ≠ '.'))).reverse ++ [])) ≠ "" := by
      simp [String.ext_iff]
    rw [if_neg hne]
    simp only [List.append_nil, List.reverse_reverse]
    rw [takeWhile_dot_before_slash path.data.reverse h]
  · rw [if_neg h]
    have hmem : ¬ ('.' ∈ (path.data.reverse.takeWhile (fun c => decide (c ≠ '/'))).reverse) := by
      simpa using h
    rw [if_neg hmem]
    simp [String.ext_iff]

theorem splitSlash_ne_nil : ∀ l : List Char, splitSlash l ≠ [] := by
  intro l
  cases l with
  | nil => simp [splitSlash]
  | cons c t =>
    by_cases hc : c = '/'
    · simp [splitSlash, hc]
    · simp only [splitSlash, hc, if_false, reduceIte]
      cases splitSlash t <;> simp

theorem takeWhile_append_fail {α} (P : α → Bool) (xs : List α) (c : α) (hc : P c = false) :
    (xs ++ [c]).takeWhile P = xs.takeWhile P := by
  induction xs with
  | nil => simp [List.takeWhile_cons, hc]
  | cons a t ih =>
    by_cases ha : P a = true
    · simp [List.takeWhile_cons, ha, ih]
    · simp only [Bool.not_eq_true] at ha
      simp [List.takeWhile_cons, ha]

theorem takeWhile_append_of_fail {α} (P : α → Bool) (xs ys : List α)
    (h : ¬ ∀ x ∈ xs, P x = true) : (xs ++ ys).takeWhile P = xs.takeWhile P := by
  induction xs with
  | nil => exact absurd (by intro x hx; simp at hx) h
  | cons a t ih =>
    by_cases ha : P a = true
    · have h2 : ¬ ∀ x ∈ t, P x = true := by
        intro hall
        exact h (by intro x hx; rcases List.mem_cons.mp hx with h1 | h1
                    · exact h1 ▸ ha
                    · exact hall x h1)
      simp [List.takeWhile_cons, ha, ih h2]
    · simp only [Bool.not_eq_true] at ha
      simp [List.takeWhile_cons, ha]

theorem splitSlash_single (l : List Char) (h : ∀ x ∈ l, ¬ x = '/') : splitSlash l = [l] := by
  induction l with
  | nil => rfl
  | cons c t ih =>
    have hc : ¬ c = '/' := h c (by simp)
    simp only [splitSlash, hc, if_false, reduceIte]
    rw [ih (fun x hx => h x (by simp [hx]))]

theorem splitSlash_slash_mem (l : List Char) (h : '/' ∈ l) :
    ∃ s ss, splitSlash l = s :: ss ∧ ss ≠ [] := by
  induction l with
  | nil => simp at h
  | cons c t ih =>
    by_cases hc : c = '/'
    · exact ⟨[], splitSlash t, by simp [splitSlash, hc], splitSlash_ne_nil t⟩
    · have hm : '/' ∈ t := by
        rcases List.mem_cons.mp h with h1 | h1
        · exact absurd h1.symm hc
        · exact h1
      obtain ⟨s, ss, hsp, hss⟩ := ih hm
      exact ⟨c :: s, ss, by simp [splitSlash, hc, hsp], hss⟩

theorem getLastD_default_irrel {α} (s : List α) (h : s ≠ []) (d d' : α) :
    s.getLastD d = s.getLastD d' := by
  cases s with
  | nil => exact absurd rfl h
  | cons a t => simp only [List.getLastD_cons]

theorem getLastD_cons_ne {α} (a : α) (s : List α) (d : α) (h : s ≠ []) :
    (a :: s).getLastD d = s.getLastD d := by
  cases s with
  | nil => exact absurd rfl h
  | cons b t => simp only [List.getLastD_cons]

theorem splitSlash_getLastD (l : List Char) :
    (splitSlash l).getLastD [] = afterLastSlashC l := by
  induction l with
  | nil => rfl
  | cons c t ih =>
    by_cases hc : c = '/'
    · subst hc
      rw [show splitSlash ('/' :: t) = [] :: splitSlash t by simp [splitSlash]]
      rw [getLastD_cons_ne _ _ _ (splitSlash_ne_nil t), ih]
      unfold afterLastSlashC
      rw [List.reverse_cons, takeWhile_append_fail _ _ _ (by simp)]
    · by_cases hm : '/' ∈ t
      · obtain ⟨s, ss, hsp, hss⟩ := splitSlash_slash_mem t hm
        rw [show splitSlash (c :: t) = (c :: s) :: ss by simp [splitSlash, hc, hsp]]
        rw [getLastD_cons_ne _ _ _ hss]
        have h2 : (splitSlash t).getLastD [] = ss.getLastD [] := by
          rw [hsp, getLastD_cons_ne _ _ _ hss]
        rw [← h2, ih]
        unfold afterLastSlashC
        rw [List.reverse_cons, takeWhile_append_of_fail]
        intro hall
        have := hall '/' (by simp [hm])
        simp at this
      · have hno : ∀ x ∈ t, ¬ x = '/' := fun x hx h1 => hm (h1 ▸ hx)
        rw [show splitSlash (c :: t) = [c :: t] by
          simp [splitSlash, hc, splitSlash_single t hno]]
        unfold afterLastSlashC
        rw [List.reverse_cons, takeWhile_append_all]
        · simp [List.takeWhile_cons, hc]
        · intro x hx
          simp [hno x (List.mem_reverse.mp hx)]

theorem dropWhile_head_false {α} (P : α → Bool) (l : List α) :
    ∀ c t, l.dropWhile P = c :: t → P c = false := by
  induction l with
  | nil => intro c t h; simp at h
  | cons a s ih =>
    intro c t h
    by_cases ha : P a = true
    · rw [List.dropWhile_cons, if_pos ha] at h
      exact ih c t h
    · simp only [Bool.not_eq_true] at ha
      rw [List.dropWhile_cons, ha] at h
      simp only [Bool.false_eq_true, if_false, reduceIte, List.cons.injEq] at h
      rw [← h.1]
      exact ha

/-- The Name Deriver's base name as the (amended) specification describes
it: `"."` for an empty path; otherwise strip trailing slashes, and take the
final path segment of what remains (`"/"` when only slashes were present). -/
def specBaseName (path : String) : String :=
  if path = "" then "."
  else
    let stripped := (path.data.reverse.dropWhile (fun c => c = '/')).reverse
    if stripped = [] then "/"
    else String.mk ((splitSlash stripped).getLastD [])

/-- The Name Deriver as the (amended) specification describes it: the base
name above, replaced by `image_<i+1><ext>` exactly when it is `"/"` or
`"."`. -/
def specDeriveName (path : String) (i : Nat) : String :=
  let b := specBaseName path
  if b = "/" ∨ b = "." then "image_" ++ toString (i + 1) ++ getFileExtension path
  else b

theorem filepathBase_eq_spec (path : String) : filepathBase path = specBaseName path := by
  unfold filepathBase specBaseName
  by_cases hp : path = ""
  · simp [hp]
  · simp only [hp, if_false, reduceIte]
    rw [splitSlash_getLastD]
    unfold afterLastSlashC
    rw [List.reverse_reverse]
    cases hD : path.data.reverse.dropWhile (fun c => c = '/') with
    | nil => simp
    | cons c t =>
      have hc : decide (c = '/') = false := dropWhile_head_false _ _ c t hD
      have hc2 : decide (c ≠ '/') = true := by
        simp only [decide_eq_false_iff_not] at hc
        simp [hc]
      have hne1 : (c :: t).reverse ≠ [] := by simp
      rw [if_neg hne1]
      have hne2 : ((c :: t).takeWhile (fun c => c ≠ '/')).reverse ≠ [] := by
        simp only [List.takeWhile_cons, hc2, if_true]
        simp
      rw [if_neg hne2]

theorem filepathBase_ne_empty (path : String) : filepathBase path ≠ "" := by
  rw [filepathBase_eq_spec]
  unfold specBaseName
  by_cases hp : path = ""
  · simp [hp, String.ext_iff]
  · simp only [hp, if_false, reduceIte]
    rcases hD : path.data.reverse.dropWhile (fun c => c = '/') with _ | ⟨c, t⟩
    · simp [String.ext_iff]
    · rw [if_neg (by simp : ¬ ((c :: t) : List Char).reverse = [])]
      rw [splitSlash_getLastD]
      unfold afterLastSlashC
      rw [List.reverse_reverse]
      have hc : decide (c = '/') = false := dropWhile_head_false _ _ c t hD
      have hc2 : decide (c ≠ '/') = true := by
        simp only [decide_eq_false_iff_not] at hc
        simp [hc]
      simp [String.ext_iff, List.takeWhile_cons, hc2]
      exact of_decide_eq_false hc

/-- C10: the base-name function used by the Name Deriver returns a
non-empty string for every URL path (`"."` for the empty path), so the
`fileName == ""` disjunct of the fallback condition is unreachable and the
synthesized-name fallback triggers exactly when the base name is `"/"` or
`"."`. -/
theorem c10_base_name_nonempty (path : String) (i : Nat) :
    filepathBase path ≠ "" ∧
    filepathBase "" = "." ∧
    ((filepathBase path = "" ∨ filepathBase path = "/" ∨ filepathBase path = ".") ↔
      (filepathBase path = "/" ∨ filepathBase path = ".")) ∧
    deriveName path i =
      (if filepathBase path = "/" ∨ filepathBase path = "." then
        "image_" ++ toString (i + 1) ++ getFileExtension path
      else filepathBase path) := by
  refine ⟨filepathBase_ne_empty path, by decide, ?_, ?_⟩
  · constructor
    · rintro (h | h)
      · exact absurd h (filepathBase_ne_empty path)
      · exact h
    · exact fun h => Or.inr h
  · unfold deriveName
    by_cases h : filepathBase path = "/" ∨ filepathBase path = "."
    · rw [if_pos (Or.inr h), if_pos h]
    · rw [if_neg ?_, if_neg h]
      rintro (h1 | h1)
      · exact filepathBase_ne_empty path h1
      · exact h h1

/-- C6 (amended): `deriveName` returns the final segment of the URL path
*after stripping trailing slashes* (`"."` for an empty path, `"/"` for an
all-slash path), and synthesizes `image_<index+1><ext>` (1-based, matching
the console numbering; `ext` from the extension helper) exactly when that
base name is `"/"` or `"."`. -/
theorem c6_derive_name_amended (path : String) (i : Nat) :
    deriveName path i = specDeriveName path i := by
  have hb : specBaseName path ≠ "" := by
    rw [← filepathBase_eq_spec]
    exact filepathBase_ne_empty path
  unfold deriveName specDeriveName
  rw [filepathBase_eq_spec]
  by_cases h : specBaseName path = "/" ∨ specBaseName path = "."
  · rw [if_pos (Or.inr h), if_pos h]
  · rw [if_neg ?_, if_neg h]
    rintro (h1 | h1)
    · exact hb h1
    · exact h h1

/-- C6 counterexample: for the path `/a/b/` the component after the last
`/` is empty, so the claim as stated predicts the synthesized fallback
name (`image_3.jpg` at 0-based index 2), but the code strips the trailing
slash first and returns `b`. -/
theorem c6_trailing_slash_counterexample :
    String.mk (afterLastSlashC ("/a/b/").data) = "" ∧
    deriveName "/a/b/" 2 = "b" ∧
    ("b" : String) ≠ "image_3.jpg" :=
  ⟨by decide, by decide, by decide⟩

/-- C7 (amended): the end-to-end `src="weird/path/"` scenario at entry
index 0 resolves to `https://site.test/weird/path/` and produces the file
name `path` — `filepath.Base` strips the trailing slash, so the
`image_1.jpg` fallback does not trigger; the body is stored under
`out/path`. -/
theorem c7_weird_path_actual :
    processEntry ⟨"https", "", none, "site.test", "/page", false, "", ""⟩
        (fun _ => .response 200 "200 OK" [1, 2]) "out" 0 "weird/path/" [] =
      (⟨.downloaded "https://site.test/weird/path/" "path",
        ["Image 1: https://site.test/weird/path/"], [], ["https://site.test/weird/path/"]⟩,
       [("out/path", [1, 2])]) := by decide

/-- C7 counterexample: the claim predicts file name `image_1.jpg` for
`src="weird/path/"` at index 0, but resolution yields path
`/weird/path/` and `deriveName` returns `path`. -/
theorem c7_weird_path_counterexample :
    resolve ⟨"https", "", none, "site.test", "/page", false, "", ""⟩ "weird/path/" =
      some ⟨"https", "", none, "site.test", "/weird/path/", false, "", ""⟩ ∧
    deriveName "/weird/path/" 0 = "path" ∧
    ("path" : String) ≠ "image_1.jpg" :=
  ⟨by decide, by decide, by decide⟩

/-- All pieces produced by `splitSlash` are slash-free. -/
theorem mem_splitSlash_no_slash : ∀ (l : List Char), ∀ s ∈ splitSlash l, ('/' : Char) ∉ s := by
  intro l
  induction l with
  | nil => intro s hs; simp [splitSlash] at hs; simp [hs]
  | cons c t ih =>
    intro s hs
    by_cases hc : c = '/'
    · rw [show splitSlash (c :: t) = [] :: splitSlash t by simp [splitSlash, hc]] at hs
      rcases List.mem_cons.mp hs with h1 | h1
      · simp [h1]
      · exact ih s h1
    · rcases hsp : splitSlash t with _ | ⟨s0, ss⟩
      · exact absurd hsp (splitSlash_ne_nil t)
      · rw [show splitSlash (c :: t) = (c :: s0) :: ss by simp [splitSlash, hc, hsp]] at hs
        rcases List.mem_cons.mp hs with h1 | h1
        · subst h1
          intro hm
          rcases List.mem_cons.mp hm with h2 | h2
          · exact hc h2.symm
          · exact ih s0 (by simp [hsp]) h2
        · exact ih s (by rw [hsp]; exact List.mem_cons_of_mem _ h1)

/-- Joining is a left inverse of splitting. -/
theorem joinSegs_splitSlash : ∀ l : List Char, joinSegs (splitSlash l) = l := by
  intro l
  induction l with
  | nil => rfl
  | cons c t ih =>
    by_cases hc : c = '/'
    · rw [show splitSlash (c :: t) = [] :: splitSlash t by simp [splitSlash, hc]]
      rcases hsp : splitSlash t with _ | ⟨s0, ss⟩
      · exact absurd hsp (splitSlash_ne_nil t)
      · rw [show joinSegs ([] :: s0 :: ss) = [] ++ '/' :: joinSegs (s0 :: ss) from rfl]
        rw [← hsp, ih, hc]
        rfl
    · rcases hsp : splitSlash t with _ | ⟨s0, ss⟩
      · exact absurd hsp (splitSlash_ne_nil t)
      · rw [show splitSlash (c :: t) = (c :: s0) :: ss by simp [splitSlash, hc, hsp]]
        rcases ss with _ | ⟨s1, ss1⟩
        · rw [show joinSegs [c :: s0] = c :: s0 from rfl]
          rw [hsp] at ih
          rw [show joinSegs [s0] = s0 from rfl] at ih
          rw [ih]
        · rw [show joinSegs ((c :: s0) :: s1 :: ss1) = (c :: s0) ++ '/' :: joinSegs (s1 :: ss1) from rfl]
          rw [hsp] at ih
          rw [show joinSegs (s0 :: s1 :: ss1) = s0 ++ '/' :: joinSegs (s1 :: ss1) from rfl] at ih
          simpa using ih

theorem jr_eq_joinSegs : ∀ t : List (List Char), t ≠ [] → jr t = '/' :: joinSegs t := by
  intro t
  induction t with
  | nil => intro h; exact absurd rfl h
  | cons s rest ih =>
    intro _
    rcases rest with _ | ⟨s1, rest1⟩
    · simp [jr, joinSegs]
    · rw [show jr (s :: s1 :: rest1) = '/' :: (s ++ jr (s1 :: rest1)) from rfl]
      rw [ih (by simp)]
      rfl

theorem jr_append_single (os : List (List Char)) (s : List Char) :
    jr (os ++ [s]) = jr os ++ '/' :: s := by
  induction os with
  | nil => simp [jr]
  | cons x t ih => simp [jr, ih]

theorem dropWhile_append_or {α} [DecidableEq α] (P : α → Bool) (xs ys : List α) :
    (xs ++ ys).dropWhile P =
      (if xs.dropWhile P = [] then ys.dropWhile P else xs.dropWhile P ++ ys) := by
  induction xs with
  | nil => simp
  | cons a t ih =>
    by_cases ha : P a = true
    · simp only [List.cons_append, List.dropWhile_cons, ha, if_true]
      exact ih
    · simp only [Bool.not_eq_true] at ha
      simp [List.dropWhile_cons, ha]

theorem dropWhile_append_all {α} [DecidableEq α] (P : α → Bool) (xs ys : List α)
    (h : ∀ x ∈ xs, P x = true) : (xs ++ ys).dropWhile P = ys.dropWhile P := by
  rw [dropWhile_append_or]
  rw [if_pos]
  rw [List.dropWhile_eq_nil_iff]
  intro x hx
  simp [h x hx]

theorem upToLastSlash_rooted (l : List Char) :
    ∃ t, upToLastSlash ('/' :: l) = '/' :: t := by
  unfold upToLastSlash
  rw [List.reverse_cons, dropWhile_append_or]
  by_cases h : l.reverse.dropWhile (fun c => c ≠ '/') = []
  · rw [if_pos h]
    exact ⟨[], by simp⟩
  · rw [if_neg h]
    exact ⟨(l.reverse.dropWhile (fun c => c ≠ '/')).reverse, by simp⟩

/-- The re-rooting step of `resolvePath`: `"/" + strings.TrimPrefix(strings.Join(dst, "/"), "/")`. -/
def renderGo (dst : List (List Char)) : List Char :=
  '/' :: trimLeadSlash (joinSegs dst)

/-- The `resolvePath` segment loop together with its trailing-slash rule,
as one recursion (the last segment is the one the trailing rule tests). -/
def goProcess (dst : List (List Char)) : List (List Char) → List (List Char)
  | [] => dst
  | [s] =>
    if s = ['.'] ∨ s = ['.', '.'] then goStep dst s ++ [[]] else goStep dst s
  | s :: s2 :: rest => goProcess (goStep dst s) (s2 :: rest)

theorem goProcess_eq_fold (src : List (List Char)) : ∀ dst, src ≠ [] →
    (if src.getLastD [] = ['.'] ∨ src.getLastD [] = ['.', '.'] then
      src.foldl goStep dst ++ [[]]
    else src.foldl goStep dst) = goProcess dst src := by
  induction src with
  | nil => intro dst h; exact absurd rfl h
  | cons s rest ih =>
    intro dst _
    rcases rest with _ | ⟨s2, rest2⟩
    · simp only [List.foldl_cons, List.foldl_nil, goProcess]
      rw [show ([s] : List (List Char)).getLastD [] = s by simp [List.getLastD_cons]]
    · rw [getLastD_cons_ne s (s2 :: rest2) [] (by simp)]
      rw [show (s :: s2 :: rest2).foldl goStep dst = (s2 :: rest2).foldl goStep (goStep dst s)
        from rfl]
      rw [ih (goStep dst s) (by simp)]
      rfl

theorem foldl_goStep_no_dots (segs : List (List Char))
    (h : ∀ s ∈ segs, s ≠ ['.'] ∧ s ≠ ['.', '.']) :
    ∀ dst, segs.foldl goStep dst = dst ++ segs := by
  induction segs with
  | nil => intro dst; simp
  | cons s rest ih =>
    intro dst
    have hs := h s (by simp)
    rw [show (s :: rest).foldl goStep dst = rest.foldl goStep (goStep dst s) from rfl]
    rw [show goStep dst s = dst ++ [s] by simp [goStep, hs.1, hs.2]]
    rw [ih (fun x hx => h x (by simp [hx])) (dst ++ [s])]
    simp

theorem trimLeadSlash_cons_slash (l : List Char) : trimLeadSlash ('/' :: l) = l := rfl

theorem trimLeadSlash_of_ne (l : List Char) (h : l.head? ≠ some '/') :
    trimLeadSlash l = l := by
  cases l with
  | nil => rfl
  | cons c t =>
    simp only [List.head?_cons, ne_eq, Option.some.injEq] at h
    unfold trimLeadSlash
    split
    · rename_i rest heq
      injection heq with h1 h2
      exact absurd h1 h
    · rfl

/-- Segment-level dot-segment removal: the common abstraction both
algorithms are reduced to.  Processes the rooted segment list left to
right; `"."` drops (leaving a trailing empty segment when last), `".."`
pops (likewise), anything else is kept. -/
def rdsSegs (os : List (List Char)) : List (List Char) → List (List Char)
  | [] => os
  | [s] =>
    if s = ['.'] then os ++ [[]]
    else if s = ['.', '.'] then os.dropLast ++ [[]]
    else os ++ [s]
  | s :: s2 :: rest =>
    if s = ['.'] then rdsSegs os (s2 :: rest)
    else if s = ['.', '.'] then rdsSegs os.dropLast (s2 :: rest)
    else rdsSegs (os ++ [s]) (s2 :: rest)

theorem renderGo_cons_nil (t : List (List Char)) (h : t ≠ []) :
    renderGo ([] :: t) = jr t := by
  rcases t with _ | ⟨t1, ts⟩
  · exact absurd rfl h
  · unfold renderGo
    rw [show joinSegs ([] :: t1 :: ts) = [] ++ '/' :: joinSegs (t1 :: ts) from rfl]
    rw [List.nil_append, trimLeadSlash_cons_slash]
    rw [jr_eq_joinSegs _ (by simp)]

theorem renderGo_head_ne (t : List (List Char)) (h : t ≠ [])
    (hh : ∀ x, t.head? = some x → x ≠ [] ∧ ('/' : Char) ∉ x) :
    renderGo t = jr t := by
  rcases t with _ | ⟨x, ts⟩
  · exact absurd rfl h
  · obtain ⟨hne, hsl⟩ := hh x rfl
    rcases x with _ | ⟨c, cs⟩
    · exact absurd rfl hne
    · have hc : ¬ c = '/' := fun h1 => hsl (by rw [h1]; exact List.mem_cons_self '/' cs)
      have hhead : ∃ X, joinSegs ((c :: cs) :: ts) = c :: X := by
        rcases ts with _ | ⟨t2, ts2⟩
        · exact ⟨cs, rfl⟩
        · exact ⟨cs ++ '/' :: joinSegs (t2 :: ts2), rfl⟩
      obtain ⟨X, hX⟩ := hhead
      unfold renderGo
      rw [hX, trimLeadSlash_of_ne _ (by simp [hc]), ← hX]
      rw [jr_eq_joinSegs _ (by simp)]

theorem renderGo_single_empty : renderGo [[]] = ['/'] := rfl

theorem jr_single_empty : jr [[]] = ['/'] := rfl

theorem head?_append_left {α} (l l2 : List α) (h : l ≠ []) : (l ++ l2).head? = l.head? := by
  cases l with
  | nil => exact absurd rfl h
  | cons a t => rfl

theorem head?_dropLast {α} (l : List α) (h : l.dropLast ≠ []) :
    l.dropLast.head? = l.head? := by
  rcases l with _ | ⟨a, _ | ⟨b, t⟩⟩
  · simp at h
  · simp at h
  · simp

theorem goCore_invariant : ∀ (segs dst os : List (List Char)),
    segs ≠ [] →
    (∀ s ∈ segs.dropLast, s ≠ []) →
    (∀ s ∈ segs, ('/' : Char) ∉ s) →
    (∀ s ∈ os, ('/' : Char) ∉ s) →
    (dst = [] :: os ∨ (dst = os ∧ (os = [] ∨ ∀ x, os.head? = some x → x ≠ []))) →
    renderGo (goProcess dst segs) = jr (rdsSegs os segs) := by
  intro segs
  induction segs with
  | nil => intro dst os h; exact fun _ _ _ _ => absurd rfl h
  | cons s rest ih =>
    intro dst os _ hint hsf hossf hR
    have hssf : ('/' : Char) ∉ s := hsf s (List.mem_cons_self s rest)
    rcases rest with _ | ⟨s2, rest2⟩
    · -- singleton segment: the trailing rule applies
      by_cases hd1 : s = ['.']
      · -- "." : dst ++ [""], os ++ [""]
        rw [show goProcess dst [s] = goStep dst s ++ [[]] by simp [goProcess, hd1]]
        rw [show goStep dst s = dst by simp [goStep, hd1]]
        rw [show rdsSegs os [s] = os ++ [[]] by simp [rdsSegs, hd1]]
        rcases hR with hR | ⟨hR, hos⟩
        · subst hR
          rw [show ([] : List Char) :: os ++ [[]] = [] :: (os ++ [[]]) from rfl]
          exact renderGo_cons_nil _ (by simp)
        · rw [hR]
          rcases hos with hos | hos
          · subst hos
            simp [renderGo_single_empty, jr_single_empty]
          · rcases os with _ | ⟨x, ot⟩
            · simp [renderGo_single_empty, jr_single_empty]
            · refine renderGo_head_ne _ (by simp) ?_
              intro y hy
              rw [head?_append_left _ _ (by simp)] at hy
              simp only [List.head?_cons, Option.some.injEq] at hy
              subst hy
              exact ⟨hos x rfl, hossf x (List.mem_cons_self x ot)⟩
      · by_cases hd2 : s = ['.', '.']
        · -- ".." : dst.dropLast ++ [""], os.dropLast ++ [""]
          rw [show goProcess dst [s] = goStep dst s ++ [[]] by simp [goProcess, hd2]]
          rw [show goStep dst s = dst.dropLast by simp [goStep, hd1, hd2]]
          rw [show rdsSegs os [s] = os.dropLast ++ [[]] by simp [rdsSegs, hd1, hd2]]
          rcases hR with hR | ⟨hR, hos⟩
          · subst hR
            rcases os with _ | ⟨o1, ot⟩
            · simp [renderGo_single_empty, jr_single_empty]
            · rw [show (([] : List Char) :: o1 :: ot).dropLast = [] :: (o1 :: ot).dropLast by simp]
              rw [show ([] : List Char) :: (o1 :: ot).dropLast ++ [[]] =
                [] :: ((o1 :: ot).dropLast ++ [[]]) from rfl]
              exact renderGo_cons_nil _ (by simp)
          · rw [hR]
            by_cases hdl : os.dropLast = []
            · simp [hdl, renderGo_single_empty, jr_single_empty]
            · refine renderGo_head_ne _ (by simp) ?_
              intro y hy
              rw [head?_append_left _ _ hdl, head?_dropLast _ hdl] at hy
              have hos2 : ∀ x, os.head? = some x → x ≠ [] := by
                rcases hos with hos | hos
                · subst hos; simp at hdl
                · exact hos
              refine ⟨hos2 y hy, ?_⟩
              rcases os with _ | ⟨x, ot⟩
              · simp at hy
              · simp only [List.head?_cons, Option.some.injEq] at hy
                subst hy
                exact hossf x (List.mem_cons_self x ot)
        · -- ordinary segment: dst ++ [s], os ++ [s]
          rw [show goProcess dst [s] = goStep dst s by simp [goProcess, hd1, hd2]]
          rw [show goStep dst s = dst ++ [s] by simp [goStep, hd1, hd2]]
          rw [show rdsSegs os [s] = os ++ [s] by simp [rdsSegs, hd1, hd2]]
          rcases hR with hR | ⟨hR, hos⟩
          · subst hR
            rw [show ([] : List Char) :: os ++ [s] = [] :: (os ++ [s]) from rfl]
            exact renderGo_cons_nil _ (by simp)
          · rw [hR]
            rcases os with _ | ⟨x, ot⟩
            · rcases s with _ | ⟨c, cs⟩
              · simp [renderGo_single_empty, jr_single_empty]
              · refine renderGo_head_ne _ (by simp) ?_
                intro y hy
                simp only [List.nil_append, List.head?_cons, Option.some.injEq] at hy
                subst hy
                exact ⟨by simp, hssf⟩
            · refine renderGo_head_ne _ (by simp) ?_
              intro y hy
              rw [head?_append_left _ _ (by simp)] at hy
              simp only [List.head?_cons, Option.some.injEq] at hy
              subst hy
              have hos2 : ∀ z, (x :: ot).head? = some z → z ≠ [] := by
                rcases hos with hos | hos
                · simp at hos
                · exact hos
              exact ⟨hos2 x rfl, hossf x (List.mem_cons_self x ot)⟩
    · -- at least two segments: one ordinary loop step, then recurse
      have hrest : (s2 :: rest2) ≠ [] := by simp
      have hint2 : ∀ x ∈ (s2 :: rest2).dropLast, x ≠ [] := by
        intro x hx
        exact hint x (by rw [List.dropLast_cons₂]; exact List.mem_cons_of_mem s hx)
      have hsf2 : ∀ x ∈ s2 :: rest2, ('/' : Char) ∉ x :=
        fun x hx => hsf x (List.mem_cons_of_mem s hx)
      rw [show goProcess dst (s :: s2 :: rest2) = goProcess (goStep dst s) (s2 :: rest2)
        from rfl]
      by_cases hd1 : s = ['.']
      · rw [show rdsSegs os (s :: s2 :: rest2) = rdsSegs os (s2 :: rest2) by
          simp [rdsSegs, hd1]]
        rw [show goStep dst s = dst by simp [goStep, hd1]]
        exact ih dst os hrest hint2 hsf2 hossf hR
      · by_cases hd2 : s = ['.', '.']
        · rw [show rdsSegs os (s :: s2 :: rest2) = rdsSegs os.dropLast (s2 :: rest2) by
            simp [rdsSegs, hd1, hd2]]
          rw [show goStep dst s = dst.dropLast by simp [goStep, hd1, hd2]]
          have hossf2 : ∀ x ∈ os.dropLast, ('/' : Char) ∉ x :=
            fun x hx => hossf x (List.dropLast_subset os hx)
          refine ih dst.dropLast os.dropLast hrest hint2 hsf2 hossf2 ?_
          rcases hR with hR | ⟨hR, hos⟩
          · subst hR
            rcases os with _ | ⟨o1, ot⟩
            · right
              refine ⟨by simp, Or.inl rfl⟩
            · left
              simp
          · right
            refine ⟨by rw [hR], ?_⟩
            by_cases hdl : os.dropLast = []
            · exact Or.inl hdl
            · right
              intro x hx
              rw [head?_dropLast _ hdl] at hx
              rcases hos with hos | hos
              · subst hos; simp at hdl
              · exact hos x hx
        · have hsne : s ≠ [] := hint s (by rw [List.dropLast_cons₂]; exact List.mem_cons_self _ _)
          rw [show rdsSegs os (s :: s2 :: rest2) = rdsSegs (os ++ [s]) (s2 :: rest2) by
            simp [rdsSegs, hd1, hd2]]
          rw [show goStep dst s = dst ++ [s] by simp [goStep, hd1, hd2]]
          have hossf2 : ∀ x ∈ os ++ [s], ('/' : Char) ∉ x := by
            intro x hx
            rcases List.mem_append.mp hx with h1 | h1
            · exact hossf x h1
            · simp only [List.mem_singleton] at h1
              subst h1
              exact hssf
          refine ih (dst ++ [s]) (os ++ [s]) hrest hint2 hsf2 hossf2 ?_
          rcases hR with hR | ⟨hR, hos⟩
          · subst hR
            left
            rfl
          · right
            refine ⟨by rw [hR], Or.inr ?_⟩
            intro x hx
            rcases os with _ | ⟨o1, ot⟩
            · simp only [List.nil_append, List.head?_cons, Option.some.injEq] at hx
              subst hx
              exact hsne
            · rw [head?_append_left _ _ (by simp)] at hx
              simp only [List.head?_cons, Option.some.injEq] at hx
              subst hx
              rcases hos with hos | hos
              · simp at hos
              · exact hos o1 rfl

theorem rdsF_nil (f : Nat) (o : List Char) : rdsF f o [] = o := by
  cases f <;> simp [rdsF]

theorem rdsF_slash (f : Nat) (o : List Char) : rdsF (f + 1) o ['/'] = o ++ ['/'] := by
  simp [rdsF, begins, takeFirstSegmentC, rdsF_nil]

theorem dropLastSegment_jr (os : List (List Char)) (h : ∀ s ∈ os, ('/' : Char) ∉ s) :
    dropLastSegment (jr os) = jr os.dropLast := by
  rcases List.eq_nil_or_concat os with hos | ⟨L, b, hos⟩
  · subst hos
    rfl
  · subst hos
    rw [List.concat_eq_append] at h ⊢
    rw [jr_append_single]
    unfold dropLastSegment
    rw [List.reverse_append, List.reverse_cons, List.append_assoc]
    rw [dropWhile_append_all _ _ _ ?hb]
    case hb =>
      intro x hx
      have : x ∈ b := List.mem_reverse.mp hx
      have hxb := h b (by simp)
      simp only [decide_eq_true_eq]
      intro he
      exact hxb (he ▸ this)
    rw [show List.dropWhile (fun c => c ≠ '/') (['/'] ++ (jr L).reverse) = '/' :: (jr L).reverse by
      simp [List.dropWhile_cons]]
    simp

theorem rdsF_dot_cons (f : Nat) (o : List Char) (rest : List (List Char)) (h : rest ≠ []) :
    rdsF (f + 1) o (jr (['.'] :: rest)) = rdsF f o (jr rest) := by
  rcases rest with _ | ⟨r1, rs⟩
  · exact absurd rfl h
  · show rdsF (f + 1) o ('/' :: ('.' :: ('/' :: (r1 ++ jr rs)))) = rdsF f o ('/' :: (r1 ++ jr rs))
    simp [rdsF, begins]

theorem rdsF_dot_single (f : Nat) (o : List Char) :
    rdsF (f + 2) o (jr [['.']]) = o ++ ['/'] := by
  show rdsF (f + 2) o ['/', '.'] = o ++ ['/']
  rw [show rdsF (f + 2) o ['/', '.'] = rdsF (f + 1) o ['/'] by simp [rdsF, begins]]
  exact rdsF_slash f o

theorem rdsF_dotdot_cons (f : Nat) (o : List Char) (rest : List (List Char)) (h : rest ≠ []) :
    rdsF (f + 1) o (jr (['.', '.'] :: rest)) = rdsF f (dropLastSegment o) (jr rest) := by
  rcases rest with _ | ⟨r1, rs⟩
  · exact absurd rfl h
  · show rdsF (f + 1) o ('/' :: ('.' :: ('.' :: ('/' :: (r1 ++ jr rs))))) =
      rdsF f (dropLastSegment o) ('/' :: (r1 ++ jr rs))
    simp [rdsF, begins]

theorem rdsF_dotdot_single (f : Nat) (o : List Char) :
    rdsF (f + 2) o (jr [['.', '.']]) = dropLastSegment o ++ ['/'] := by
  show rdsF (f + 2) o ['/', '.', '.'] = dropLastSegment o ++ ['/']
  rw [show rdsF (f + 2) o ['/', '.', '.'] = rdsF (f + 1) (dropLastSegment o) ['/'] by
    simp [rdsF, begins]]
  exact rdsF_slash f _

theorem jr_shape (rest : List (List Char)) :
    jr rest = [] ∨ ∃ tl, jr rest = '/' :: tl := by
  rcases rest with _ | ⟨r1, rs⟩
  · exact Or.inl rfl
  · exact Or.inr ⟨r1 ++ jr rs, rfl⟩

theorem begins_true_elim {a : Char} {p l : List Char} (h : begins (a :: p) l = true) :
    ∃ t, l = a :: t ∧ begins p t = true := by
  cases l with
  | nil => simp [begins] at h
  | cons b t =>
    simp only [begins, Bool.and_eq_true, decide_eq_true_eq] at h
    exact ⟨t, by rw [h.1], h.2⟩

theorem rdsF_seg_cons (f : Nat) (o : List Char) (s : List Char) (rest : List (List Char))
    (hsl : ('/' : Char) ∉ s) (h1 : s ≠ ['.']) (h2 : s ≠ ['.', '.']) :
    rdsF (f + 1) o (jr (s :: rest)) = rdsF f (o ++ '/' :: s) (jr rest) := by
  have htw : (s ++ jr rest).takeWhile (fun c => c ≠ '/') = s := by
    rw [takeWhile_append_all _ _ _ (fun x hx => by
      simp only [decide_eq_true_eq]
      exact fun he => hsl (he ▸ hx))]
    rcases jr_shape rest with hj | ⟨tl, hj⟩
    · rw [hj]; simp
    · rw [hj]; simp [List.takeWhile_cons]
  have hdw : (s ++ jr rest).dropWhile (fun c => c ≠ '/') = jr rest := by
    rw [dropWhile_append_all _ _ _ (fun x hx => by
      simp only [decide_eq_true_eq]
      exact fun he => hsl (he ▸ hx))]
    rcases jr_shape rest with hj | ⟨tl, hj⟩
    · rw [hj]; simp
    · rw [hj]; simp [List.dropWhile_cons]
  have hTF : takeFirstSegmentC ('/' :: (s ++ jr rest)) = ('/' :: s, jr rest) := by
    unfold takeFirstSegmentC
    rw [if_pos (by simp)]
    simp only [List.tail_cons, htw, hdw]
  have hc3 : ¬ (begins ['/', '.', '/'] ('/' :: (s ++ jr rest)) = true) := by
    intro hc
    obtain ⟨t1, he1, hc⟩ := begins_true_elim hc
    have ht1 : t1 = s ++ jr rest := by injection he1 with _ h; exact h.symm
    subst ht1
    obtain ⟨t2, he2, hc⟩ := begins_true_elim hc
    obtain ⟨t3, he3, -⟩ := begins_true_elim hc
    rcases s with _ | ⟨a, s1⟩
    · rw [List.nil_append] at he2
      rcases jr_shape rest with hj | ⟨tl, hj⟩ <;> rw [hj] at he2 <;> simp at he2
    · rw [List.cons_append] at he2
      injection he2 with ha hs1
      subst ha
      rcases s1 with _ | ⟨b, s2⟩
      · exact h1 rfl
      · rw [List.cons_append] at hs1
        rw [← hs1] at he3
        injection he3 with hb _
        exact hsl (by rw [hb]; exact List.mem_cons_of_mem _ (List.mem_cons_self '/' s2))
  have hc4 : ¬ ('/' :: (s ++ jr rest) = ['/', '.']) := by
    intro hc
    have hq : s ++ jr rest = ['.'] := by injection hc
    rcases s with _ | ⟨a, s1⟩
    · rw [List.nil_append] at hq
      rcases jr_shape rest with hj | ⟨tl, hj⟩ <;> rw [hj] at hq <;> simp at hq
    · rw [List.cons_append] at hq
      injection hq with ha hs1
      subst ha
      rcases List.append_eq_nil.mp hs1 with ⟨hh1, -⟩
      subst hh1
      exact h1 rfl
  have hc5 : ¬ (begins ['/', '.', '.', '/'] ('/' :: (s ++ jr rest)) = true) := by
    intro hc
    obtain ⟨t1, he1, hc⟩ := begins_true_elim hc
    have ht1 : t1 = s ++ jr rest := by injection he1 with _ h; exact h.symm
    subst ht1
    obtain ⟨t2, he2, hc⟩ := begins_true_elim hc
    obtain ⟨t3, he3, hc⟩ := begins_true_elim hc
    obtain ⟨t4, he4, -⟩ := begins_true_elim hc
    rcases s with _ | ⟨a, s1⟩
    · rw [List.nil_append] at he2
      rcases jr_shape rest with hj | ⟨tl, hj⟩ <;> rw [hj] at he2 <;> simp at he2
    · rw [List.cons_append] at he2
      injection he2 with ha hs1
      subst ha
      rcases s1 with _ | ⟨b, s2⟩
      · rw [List.nil_append] at hs1
        rw [← hs1] at he3
        rcases jr_shape rest with hj | ⟨tl, hj⟩ <;> rw [hj] at he3 <;> simp at he3
      · rw [List.cons_append] at hs1
        rw [← hs1] at he3
        injection he3 with hb hs2
        subst hb
        rcases s2 with _ | ⟨c2, s3⟩
        · exact h2 rfl
        · rw [List.cons_append] at hs2
          rw [← hs2] at he4
          injection he4 with hcc _
          exact hsl (by
            rw [hcc]
            exact List.mem_cons_of_mem _ (List.mem_cons_of_mem _ (List.mem_cons_self '/' s3)))
  have hc6 : ¬ ('/' :: (s ++ jr rest) = ['/', '.', '.']) := by
    intro hc
    have hq : s ++ jr rest = ['.', '.'] := by injection hc
    rcases s with _ | ⟨a, _ | ⟨b, s2⟩⟩
    · rw [List.nil_append] at hq
      rcases jr_shape rest with hj | ⟨tl, hj⟩ <;> rw [hj] at hq <;> simp at hq
    · rw [List.cons_append, List.nil_append] at hq
      injection hq with ha hq
      rcases jr_shape rest with hj | ⟨tl, hj⟩ <;> rw [hj] at hq <;> simp at hq
    · rw [List.cons_append, List.cons_append] at hq
      injection hq with ha hq
      injection hq with hb hq
      rcases List.append_eq_nil.mp hq with ⟨hh1, -⟩
      subst hh1
      subst ha
      subst hb
      exact h2 rfl
  show rdsF (f + 1) o ('/' :: (s ++ jr rest)) = rdsF f (o ++ '/' :: s) (jr rest)
  rw [show rdsF (f + 1) o ('/' :: (s ++ jr rest)) =
    rdsF f (o ++ (takeFirstSegmentC ('/' :: (s ++ jr rest))).1)
      (takeFirstSegmentC ('/' :: (s ++ jr rest))).2 by
    simp only [rdsF]
    rw [if_neg (by simp), if_neg (by simp [begins]), if_neg (by simp [begins]),
      if_neg hc3, if_neg hc4, if_neg hc5, if_neg hc6, if_neg (by
        rintro (hq | hq) <;> simp at hq)]]
  rw [hTF]

theorem jr_length_cons (s : List Char) (t : List (List Char)) :
    (jr (s :: t)).length = s.length + (jr t).length + 1 := by
  simp [jr]

theorem rds_jr : ∀ (segs : List (List Char)) (os : List (List Char)) (f : Nat),
    (∀ s ∈ segs, ('/' : Char) ∉ s) →
    (∀ s ∈ os, ('/' : Char) ∉ s) →
    segs ≠ [] →
    (jr segs).length < f →
    rdsF f (jr os) (jr segs) = jr (rdsSegs os segs) := by
  intro segs
  induction segs with
  | nil => intro os f _ _ h; exact absurd rfl h
  | cons s rest ih =>
    intro os f hsf hossf _ hf
    rw [jr_length_cons] at hf
    rcases rest with _ | ⟨s2, rest2⟩
    · by_cases hd1 : s = ['.']
      · subst hd1
        obtain ⟨f', rfl⟩ : ∃ f', f = f' + 2 := ⟨f - 2, by simp at hf; omega⟩
        rw [rdsF_dot_single]
        rw [show rdsSegs os [['.']] = os ++ [[]] by simp [rdsSegs]]
        rw [jr_append_single]
      · by_cases hd2 : s = ['.', '.']
        · subst hd2
          obtain ⟨f', rfl⟩ : ∃ f', f = f' + 2 := ⟨f - 2, by simp at hf; omega⟩
          rw [rdsF_dotdot_single]
          rw [dropLastSegment_jr os hossf]
          rw [show rdsSegs os [['.', '.']] = os.dropLast ++ [[]] by simp [rdsSegs]]
          rw [jr_append_single]
        · obtain ⟨f', rfl⟩ : ∃ f', f = f' + 1 := ⟨f - 1, by omega⟩
          rw [rdsF_seg_cons f' (jr os) s [] (hsf s (by simp)) hd1 hd2]
          rw [show jr ([] : List (List Char)) = [] from rfl, rdsF_nil]
          rw [show rdsSegs os [s] = os ++ [s] by simp [rdsSegs, hd1, hd2]]
          rw [jr_append_single]
    · have hfuel : (jr (s2 :: rest2)).length < f - 1 := by omega
      have hsf2 : ∀ x ∈ s2 :: rest2, ('/' : Char) ∉ x :=
        fun x hx => hsf x (List.mem_cons_of_mem s hx)
      obtain ⟨f', rfl⟩ : ∃ f', f = f' + 1 := ⟨f - 1, by omega⟩
      have hfuel2 : (jr (s2 :: rest2)).length < f' := by omega
      by_cases hd1 : s = ['.']
      · subst hd1
        rw [rdsF_dot_cons f' (jr os) (s2 :: rest2) (by simp)]
        rw [show rdsSegs os (['.'] :: s2 :: rest2) = rdsSegs os (s2 :: rest2) by simp [rdsSegs]]
        exact ih os f' hsf2 hossf (by simp) hfuel2
      · by_cases hd2 : s = ['.', '.']
        · subst hd2
          rw [rdsF_dotdot_cons f' (jr os) (s2 :: rest2) (by simp)]
          rw [dropLastSegment_jr os hossf]
          rw [show rdsSegs os (['.', '.'] :: s2 :: rest2) = rdsSegs os.dropLast (s2 :: rest2) by
            simp [rdsSegs]]
          exact ih os.dropLast f' hsf2 (fun x hx => hossf x (List.dropLast_subset os hx))
            (by simp) hfuel2
        · rw [rdsF_seg_cons f' (jr os) s (s2 :: rest2) (hsf s (by simp)) hd1 hd2]
          rw [show jr os ++ '/' :: s = jr (os ++ [s]) by rw [jr_append_single]]
          rw [show rdsSegs os (s :: s2 :: rest2) = rdsSegs (os ++ [s]) (s2 :: rest2) by
            simp [rdsSegs, hd1, hd2]]
          refine ih (os ++ [s]) f' hsf2 ?_ (by simp) hfuel2
          intro x hx
          rcases List.mem_append.mp hx with h1 | h1
          · exact hossf x h1
          · simp only [List.mem_singleton] at h1
            exact h1 ▸ hsf s (by simp)

theorem resolvePathC_eq_goProcess (base ref : List Char) (h : goMergeFull base ref ≠ []) :
    resolvePathC base ref = renderGo (goProcess [] (splitSlash (goMergeFull base ref))) := by
  unfold resolvePathC renderGo
  rw [if_neg h]
  dsimp only
  rw [goProcess_eq_fold (splitSlash (goMergeFull base ref)) []
    (splitSlash_ne_nil (goMergeFull base ref))]

theorem splitSlash_cons_slash (r : List Char) : splitSlash ('/' :: r) = [] :: splitSlash r := by
  simp [splitSlash]

theorem goProcess_rfc_rooted (r : List Char)
    (hint : ∀ x ∈ (splitSlash r).dropLast, x ≠ []) :
    renderGo (goProcess [] (splitSlash ('/' :: r))) = rdsRun [] ('/' :: r) := by
  rw [splitSlash_cons_slash]
  have htne := splitSlash_ne_nil r
  rcases ht : splitSlash r with _ | ⟨t1, ts⟩
  · exact absurd ht htne
  · rw [show goProcess [] ([] :: t1 :: ts) = goProcess (goStep [] []) (t1 :: ts) from rfl]
    rw [show goStep [] ([] : List Char) = [[]] by simp [goStep]]
    have hjrt : jr (t1 :: ts) = '/' :: r := by
      rw [jr_eq_joinSegs _ (by simp), ← ht, joinSegs_splitSlash]
    have hsf : ∀ s ∈ t1 :: ts, ('/' : Char) ∉ s := by
      intro s hs
      exact mem_splitSlash_no_slash r s (ht ▸ hs)
    have hcore := goCore_invariant (t1 :: ts) [[]] [] (by simp) (ht ▸ hint) hsf
      (by intro s hs; simp at hs) (Or.inl rfl)
    rw [hcore]
    unfold rdsRun
    rw [← hjrt]
    exact (rds_jr (t1 :: ts) [] ((jr (t1 :: ts)).length + 1) hsf
      (by intro s hs; simp at hs) (by simp) (by omega)).symm

theorem goProcess_rfc_unrooted (p : List Char) (_hne : p ≠ [])
    (hint : ∀ x ∈ (splitSlash p).dropLast, x ≠ []) :
    renderGo (goProcess [] (splitSlash p)) = rdsRun [] ('/' :: p) := by
  have hsf : ∀ s ∈ splitSlash p, ('/' : Char) ∉ s := mem_splitSlash_no_slash p
  have hcore := goCore_invariant (splitSlash p) [] [] (splitSlash_ne_nil p) hint hsf
    (by intro s hs; simp at hs) (Or.inr ⟨rfl, Or.inl rfl⟩)
  rw [hcore]
  have hjrt : jr (splitSlash p) = '/' :: p := by
    rw [jr_eq_joinSegs _ (splitSlash_ne_nil p), joinSegs_splitSlash]
  unfold rdsRun
  rw [← hjrt]
  exact (rds_jr (splitSlash p) [] ((jr (splitSlash p)).length + 1) hsf
    (by intro s hs; simp at hs) (splitSlash_ne_nil p) (by omega)).symm

theorem getLastD_mem_of_ne_nil {α} (l : List α) (d : α) (h : l ≠ []) : l.getLastD d ∈ l := by
  cases l with
  | nil => exact absurd rfl h
  | cons a t =>
    rw [List.getLastD_cons]
    exact List.getLastD_mem_cons t a

theorem resolvePathC_fix (p : List Char)
    (hdot : ∀ s ∈ splitSlash p, s ≠ ['.'] ∧ s ≠ ['.', '.'])
    (hp : p = [] ∨ p.head? = some '/') :
    resolvePathC p [] = p := by
  rcases hp with hp | hp
  · subst hp
    rfl
  · rcases p with _ | ⟨c, r⟩
    · simp at hp
    · simp only [List.head?_cons, Option.some.injEq] at hp
      subst hp
      have hmerge : goMergeFull ('/' :: r) [] = '/' :: r := by simp [goMergeFull]
      unfold resolvePathC
      rw [hmerge, if_neg (by simp)]
      dsimp only
      rw [foldl_goStep_no_dots _ hdot []]
      rw [List.nil_append]
      have hlast := hdot _ (getLastD_mem_of_ne_nil (splitSlash ('/' :: r)) []
        (splitSlash_ne_nil _))
      rw [if_neg (by
        rintro (hq | hq)
        · exact hlast.1 hq
        · exact hlast.2 hq)]
      rw [splitSlash_cons_slash]
      rcases ht : splitSlash r with _ | ⟨t1, ts⟩
      · exact absurd ht (splitSlash_ne_nil r)
      · rw [show joinSegs ([] :: t1 :: ts) = [] ++ '/' :: joinSegs (t1 :: ts) from rfl]
        rw [List.nil_append, trimLeadSlash_cons_slash, ← ht, joinSegs_splitSlash]

/-- The rooted-segment list of a path: what remains after the root slash,
split on `'/'`. -/
def pathSegs (l : List Char) : List (List Char) :=
  if l.head? = some '/' then splitSlash l.tail else splitSlash l

theorem resolveReference_eq_rfc (u ref : GoURL)
    (hbh : u.host ≠ "") (hbu : u.user = none) (hbf : u.forceQuery = false)
    (hbp : u.path = "" ∨ u.path.data.head? = some '/')
    (hbdot : ∀ s ∈ splitSlash u.path.data, s ≠ ['.'] ∧ s ≠ ['.', '.'])
    (hrs : ref.scheme = "") (hrh : ref.host = "") (hru : ref.user = none) (hro : ref.opq = "")
    (hrne : ¬ (ref.path = "" ∧ ref.forceQuery = false ∧ ref.rawQuery = "" ∧ ref.fragment = ""))
    (hint : ∀ x ∈ (pathSegs (goMergeFull u.path.data ref.path.data)).dropLast, x ≠ []) :
    resolveReference u ref = rfc3986Resolve u ref := by
  have hfix : resolvePath u.path "" = u.path := by
    show String.mk (resolvePathC u.path.data []) = u.path
    rw [resolvePathC_fix u.path.data hbdot (by
      rcases hbp with h | h
      · exact Or.inl (by rw [h])
      · exact Or.inr h)]
  unfold resolveReference rfc3986Resolve
  dsimp only
  by_cases hp : ref.path = ""
  · by_cases hq1 : ref.rawQuery = ""
    · by_cases hq2 : ref.forceQuery = true
      · simp [hrs, hrh, hru, hro, hp, hq1, hq2, hfix, hbu]
      · have hfq : ref.forceQuery = false := by
          cases h2 : ref.forceQuery
          · rfl
          · exact absurd h2 hq2
        have hfrag : ¬ ref.fragment = "" := fun hfr => hrne ⟨hp, hfq, hq1, hfr⟩
        simp [hrs, hrh, hru, hro, hp, hq1, hfq, hfrag, hfix, hbu, hbf]
    · simp [hrs, hrh, hru, hro, hp, hq1, hfix, hbu]
  · have hpd : ref.path.data ≠ [] := by
      intro hd
      exact hp (by rw [String.ext_iff, hd])
    by_cases hr : ref.path.data.head? = some '/'
    · rcases hpl : ref.path.data with _ | ⟨c, r⟩
      · exact absurd hpl hpd
      · have hc : c = '/' := by
          rw [hpl] at hr
          simpa using hr
        subst hc
        have hmerge : goMergeFull u.path.data ref.path.data = '/' :: r := by
          rw [hpl]
          simp [goMergeFull]
        have hpath : resolvePath u.path ref.path = rfcRemoveDotSegments ref.path := by
          show String.mk (resolvePathC u.path.data ref.path.data) =
            String.mk (rdsRun [] ref.path.data)
          rw [resolvePathC_eq_goProcess _ _ (by rw [hmerge]; simp), hmerge]
          rw [goProcess_rfc_rooted r (by
            have h2 := hint
            rw [hmerge] at h2
            unfold pathSegs at h2
            rw [if_pos (by simp)] at h2
            simpa using h2)]
          rw [hpl]
        simp [hrs, hrh, hru, hro, hp, hr, hpath, hbu]
    · rcases hbp with hbe | hbr
      · have hup : u.path.data = [] := by rw [hbe]
        have hmerge : goMergeFull u.path.data ref.path.data = ref.path.data := by
          unfold goMergeFull
          rw [if_neg hpd, if_pos (by simp [hr])]
          rw [hup]
          rfl
        have hpath : resolvePath u.path ref.path =
            rfcRemoveDotSegments (rfcMerge u ref.path) := by
          show String.mk (resolvePathC u.path.data ref.path.data) =
            String.mk (rdsRun [] (rfcMerge u ref.path).data)
          rw [resolvePathC_eq_goProcess _ _ (by rw [hmerge]; exact hpd), hmerge]
          rw [goProcess_rfc_unrooted ref.path.data hpd (by
            have h2 := hint
            rw [hmerge] at h2
            unfold pathSegs at h2
            rw [if_neg hr] at h2
            exact h2)]
          rw [show rfcMerge u ref.path = "/" ++ ref.path by
            unfold rfcMerge
            rw [if_pos ⟨hbh, hbe⟩]]
          rw [show ("/" ++ ref.path).data = '/' :: ref.path.data by simp [String.data_append]]
        simp [hrs, hrh, hru, hro, hp, hr, hpath, hbu]
      · rcases hbl : u.path.data with _ | ⟨c, br⟩
        · rw [hbl] at hbr; simp at hbr
        · have hc : c = '/' := by
            rw [hbl] at hbr
            simpa using hbr
          subst hc
          obtain ⟨t, hup⟩ := upToLastSlash_rooted br
          have hbne : u.path ≠ "" := by
            intro hb
            rw [String.ext_iff] at hb
            rw [hbl] at hb
            simp at hb
          have hmerge : goMergeFull u.path.data ref.path.data =
              '/' :: (t ++ ref.path.data) := by
            unfold goMergeFull
            rw [if_neg hpd, if_pos (by simp [hr]), hbl, hup]
            rfl
          have hpath : resolvePath u.path ref.path =
              rfcRemoveDotSegments (rfcMerge u ref.path) := by
            show String.mk (resolvePathC u.path.data ref.path.data) =
              String.mk (rdsRun [] (rfcMerge u ref.path).data)
            rw [resolvePathC_eq_goProcess _ _ (by rw [hmerge]; simp), hmerge]
            rw [goProcess_rfc_rooted (t ++ ref.path.data) (by
              have h2 := hint
              rw [hmerge] at h2
              unfold pathSegs at h2
              rw [if_pos (by simp)] at h2
              simpa using h2)]
            rw [show rfcMerge u ref.path = String.mk (upToLastSlash u.path.data) ++ ref.path by
              unfold rfcMerge
              rw [if_neg (by
                rintro ⟨-, hbp2⟩
                exact hbne hbp2)]]
            rw [String.data_append]
            rw [show (String.mk (upToLastSlash u.path.data)).data = upToLastSlash u.path.data
              from rfl]
            rw [hbl, hup]
            rfl
          simp [hrs, hrh, hru, hro, hp, hr, hpath, hbu]

/-- C3 (amended): for every RFC 5.2.1-conformant base URL (absolute, with
authority, no userinfo, dot-free already-normalized rooted path, no bare
`?`) and every relative raw source reference (no scheme/authority/opaque
part, non-empty in effect) whose merged path keeps its empty segments away
from the interior (no `//` collapsing against `..`), `base.Parse` returns
exactly the RFC 3986 relative-resolution result; in particular
`resolve(https://ex.com/a/b, ../c.png) = https://ex.com/c.png`. -/
theorem c3_resolve_matches_rfc3986 :
    (∀ u ref : GoURL,
      u.host ≠ "" → u.user = none → u.forceQuery = false →
      (u.path = "" ∨ u.path.data.head? = some '/') →
      (∀ s ∈ splitSlash u.path.data, s ≠ ['.'] ∧ s ≠ ['.', '.']) →
      ref.scheme = "" → ref.host = "" → ref.user = none → ref.opq = "" →
      ¬ (ref.path = "" ∧ ref.forceQuery = false ∧ ref.rawQuery = "" ∧ ref.fragment = "") →
      (∀ x ∈ (pathSegs (goMergeFull u.path.data ref.path.data)).dropLast, x ≠ []) →
      resolveReference u ref = rfc3986Resolve u ref) ∧
    (resolve ⟨"https", "", none, "ex.com", "/a/b", false, "", ""⟩ "../c.png" =
      some ⟨"https", "", none, "ex.com", "/c.png", false, "", ""⟩ ∧
    urlString ⟨"https", "", none, "ex.com", "/c.png", false, "", ""⟩ = "https://ex.com/c.png") :=
  ⟨fun u ref h1 h2 h3 h4 h5 h6 h7 h8 h9 h10 h11 =>
    resolveReference_eq_rfc u ref h1 h2 h3 h4 h5 h6 h7 h8 h9 h10 h11,
   by decide, by decide⟩

/-- Witness for C3 at the specification's own example: base
`https://ex.com/a/b` and raw `../c.png`, with every hypothesis evaluated. -/
theorem c3_resolve_matches_rfc3986_witness :
    (∀ s ∈ splitSlash ("/a/b" : String).data, s ≠ ['.'] ∧ s ≠ ['.', '.']) ∧
    resolveReference ⟨"https", "", none, "ex.com", "/a/b", false, "", ""⟩
        ⟨"", "", none, "", "../c.png", false, "", ""⟩ =
      rfc3986Resolve ⟨"https", "", none, "ex.com", "/a/b", false, "", ""⟩
        ⟨"", "", none, "", "../c.png", false, "", ""⟩ :=
  ⟨by decide,
    c3_resolve_matches_rfc3986.1
      ⟨"https", "", none, "ex.com", "/a/b", false, "", ""⟩
      ⟨"", "", none, "", "../c.png", false, "", ""⟩
      (by decide) rfl rfl (by decide) (by decide) rfl rfl rfl rfl (by decide) (by decide)⟩

/-- C3 counterexample: two valid inputs where `base.Parse` (`net/url`)
disagrees with RFC 3986 remove_dot_segments / 5.2.2.  First, raw `/..//a`:
Go folds the `..`-popped empty root together with the following empty
segment and yields path `/a`, the RFC algorithm yields `//a`.  Second, a
query-only raw `?q` against the unnormalized base path `/a/../b`: Go
normalizes the base path to `/b`, the RFC copies it verbatim. -/
theorem c3_rfc_divergence_counterexample :
    (resolve ⟨"https", "", none, "ex.com", "/x", false, "", ""⟩ "/..//a" =
      some ⟨"https", "", none, "ex.com", "/a", false, "", ""⟩ ∧
    rfc3986Resolve ⟨"https", "", none, "ex.com", "/x", false, "", ""⟩
        ⟨"", "", none, "", "/..//a", false, "", ""⟩ =
      ⟨"https", "", none, "ex.com", "//a", false, "", ""⟩ ∧
    ("/a" : String) ≠ "//a") ∧
    (resolve ⟨"https", "", none, "ex.com", "/a/../b", false, "", ""⟩ "?q" =
      some ⟨"https", "", none, "ex.com", "/b", false, "q", ""⟩ ∧
    rfc3986Resolve ⟨"https", "", none, "ex.com", "/a/../b", false, "", ""⟩
        ⟨"", "", none, "", "", false, "q", ""⟩ =
      ⟨"https", "", none, "ex.com", "/a/../b", false, "q", ""⟩ ∧
    ("/b" : String) ≠ "/a/../b") := by
  exact ⟨⟨by decide, by decide, by decide⟩, ⟨by decide, by decide, by decide⟩⟩

/-- C4 (amended): for every raw source URL that already carries a scheme,
`resolve` is independent of the base, and it returns the URL unchanged
whenever its path is empty-or-rooted and free of dot segments; dot
segments in such an absolute URL's path are normalized away (they are not
kept verbatim). -/
theorem c4_absolute_raw_base_independent :
    (∀ b b' r : GoURL, r.scheme ≠ "" → resolveReference b r = resolveReference b' r) ∧
    (∀ b r : GoURL, r.scheme ≠ "" →
      (r.path = "" ∨ r.path.data.head? = some '/') →
      (∀ s ∈ splitSlash r.path.data, s ≠ ['.'] ∧ s ≠ ['.', '.']) →
      resolveReference b r = r) := by
  constructor
  · intro b b' r hs
    unfold resolveReference
    dsimp only
    simp [hs]
  · intro b r hs hroot hdot
    have hfix2 : resolvePath r.path "" = r.path := by
      show String.mk (resolvePathC r.path.data []) = r.path
      rw [resolvePathC_fix r.path.data hdot (by
        rcases hroot with h | h
        · exact Or.inl (by rw [h])
        · exact Or.inr h)]
    unfold resolveReference
    dsimp only
    simp [hs, hfix2]

/-- Witness for C4: the absolute raw `http://other.test/b.jpg` resolved
against two different bases gives the same URL, and it comes back
unchanged. -/
theorem c4_absolute_raw_base_independent_witness :
    resolveReference ⟨"https", "", none, "ex.com", "/x", false, "", ""⟩
        ⟨"http", "", none, "other.test", "/b.jpg", false, "", ""⟩ =
      resolveReference ⟨"https", "", none, "site.test", "/page", false, "", ""⟩
        ⟨"http", "", none, "other.test", "/b.jpg", false, "", ""⟩ ∧
    resolveReference ⟨"https", "", none, "ex.com", "/x", false, "", ""⟩
        ⟨"http", "", none, "other.test", "/b.jpg", false, "", ""⟩ =
      ⟨"http", "", none, "other.test", "/b.jpg", false, "", ""⟩ :=
  ⟨c4_absolute_raw_base_independent.1 _ _ _ (by decide),
   c4_absolute_raw_base_independent.2 _ _ (by decide) (by decide) (by decide)⟩

/-- C4 counterexample: the valid absolute raw
`http://other.test/a/../b.jpg` is *not* returned unchanged — its dot
segment is normalized away by `resolvePath`. -/
theorem c4_absolute_raw_counterexample :
    resolve ⟨"https", "", none, "ex.com", "/x", false, "", ""⟩ "http://other.test/a/../b.jpg" =
      some ⟨"http", "", none, "other.test", "/b.jpg", false, "", ""⟩ ∧
    urlString ⟨"http", "", none, "other.test", "/b.jpg", false, "", ""⟩ =
      "http://other.test/b.jpg" ∧
    ("http://other.test/b.jpg" : String) ≠ "http://other.test/a/../b.jpg" :=
  ⟨by decide, by decide, by decide⟩
